import Mathlib

/-!
Verification development for the strchat-tui relay chat client.

Go strings are modelled as their sequences of runes (`List Char`).  Every
function modelled here either iterates runes directly (`for _, r := range s`)
or iterates bytes in a way that agrees with rune iteration on the inputs it
is applied to (argued in the comment of each such definition).  Go `int` is
modelled as `Int`, with the `strconv.Atoi` range check made explicit.
-/

namespace StrChat

/-- A Go string, viewed as its sequence of runes. -/
abbrev GoStr := List Char

/-- Go `unicode.IsSpace`: the Unicode White_Space property (the Latin-1
special cases plus the White_Space table ranges). -/
def goIsSpace (c : Char) : Bool :=
  let n := c.toNat
  decide (n = 9 ∨ n = 10 ∨ n = 11 ∨ n = 12 ∨ n = 13 ∨ n = 32 ∨
    n = 0x85 ∨ n = 0xA0 ∨ n = 0x1680 ∨ (0x2000 ≤ n ∧ n ≤ 0x200A) ∨
    n = 0x2028 ∨ n = 0x2029 ∨ n = 0x202F ∨ n = 0x205F ∨ n = 0x3000)

/-- Go `strings.TrimSpace`: drop White_Space runes from both ends. -/
def goTrimSpace (s : GoStr) : GoStr :=
  ((s.dropWhile goIsSpace).reverse.dropWhile goIsSpace).reverse

/-- Go `strings.Trim(s, "-")`: drop dashes from both ends. -/
def goTrimDashes (s : GoStr) : GoStr :=
  ((s.dropWhile (· = '-')).reverse.dropWhile (· = '-')).reverse

/-- Go `strconv.Atoi` (i.e. `ParseInt(s, 10, 64)` on a 64-bit platform):
optional sign, one or more decimal digits, failure outside the `int64`
range.  `none` models a non-nil error. -/
def goAtoi (s : GoStr) : Option Int :=
  let (neg, digits) :=
    match s with
    | '+' :: r => (false, r)
    | '-' :: r => (true, r)
    | r => (false, r)
  if digits = [] then none
  else if digits.all (fun c => decide ('0' ≤ c ∧ c ≤ '9')) then
    let n : Nat := digits.foldl (fun a c => a * 10 + (c.toNat - '0'.toNat)) 0
    let v : Int := if neg then -(n : Int) else (n : Int)
    if -(2 ^ 63) ≤ v ∧ v ≤ 2 ^ 63 - 1 then some v else none
  else none

/-- Go `bits.LeadingZeros8`. -/
def leadingZeros8 (n : Nat) : Nat :=
  if n = 0 then 8 else 7 - Nat.log2 n

/-- The value of a hexadecimal digit rune, `none` for non-hex runes. -/
def hexVal (c : Char) : Option Nat :=
  if '0' ≤ c ∧ c ≤ '9' then some (c.toNat - '0'.toNat)
  else if 'a' ≤ c ∧ c ≤ 'f' then some (c.toNat - 'a'.toNat + 10)
  else if 'A' ≤ c ∧ c ≤ 'F' then some (c.toNat - 'A'.toNat + 10)
  else none

/-- The precomputed `hexToLeadingZeros` table of `utils.go`: number of
leading zero bits contributed by one hex digit; `none` models the `-1`
sentinel stored for non-hex bytes. -/
def hexToLeadingZeros (c : Char) : Option Nat :=
  (hexVal c).map (fun v => if v = 0 then 4 else leadingZeros8 (v <<< 4))

/-- `countLeadingZeroBits` of `utils.go`.  The Go code walks the bytes of
the string; every hex digit is a single ASCII byte and the first byte of any
non-ASCII rune is not a hex digit, so walking runes gives the same count. -/
def countLeadingZeroBits : GoStr → Nat
  | [] => 0
  | c :: rest =>
    match hexToLeadingZeros c with
    | none => 0
    | some z => if z = 4 then 4 + countLeadingZeroBits rest else z

/-- A Nostr event, with the fields the client reads. -/
structure NEvent where
  id : GoStr
  pubkey : GoStr
  createdAt : Int
  kind : Int
  tags : List (List GoStr)
  content : GoStr

/-- go-nostr `Tags.Find`: the first tag with at least two elements whose
first element is `key`. -/
def findTag (tags : List (List GoStr)) (key : GoStr) : Option (List GoStr) :=
  match tags with
  | [] => none
  | t :: rest =>
    if 2 ≤ t.length ∧ t.head? = some key then some t else findTag rest key

/-- go-nostr `Tags.FindLast`: the last tag with at least two elements whose
first element is `key`. -/
def findLast (tags : List (List GoStr)) (key : GoStr) : Option (List GoStr) :=
  match tags with
  | [] => none
  | t :: rest =>
    match findLast rest key with
    | some r => some r
    | none => if 2 ≤ t.length ∧ t.head? = some key then some t else none

/-- The literal tag name "nonce". -/
def nonceName : GoStr := "nonce".data

/-- `isPoWValid` of `utils.go`. -/
def isPoWValid (ev : NEvent) (minDifficulty : Int) : Bool :=
  if minDifficulty ≤ 0 then true
  else
    match findLast ev.tags nonceName with
    | none => false
    | some nonceTag =>
      if nonceTag.length < 3 then false
      else
        match goAtoi (goTrimSpace (nonceTag.getD 2 [])) with
        | none => false
        | some claimed =>
          if claimed < minDifficulty then false
          else decide (claimed ≤ (countLeadingZeroBits ev.id : Int))

/-- The Unicode classification tables the Go code uses through the
`unicode` package (`IsLetter`, `IsNumber`, `Is(unicode.M, r)`, `IsPrint`,
`ToLower`).  `IsSpace` is modelled concretely as `goIsSpace` above.  The
real Go tables are one instance of this structure; theorems that depend on
facts of the real tables take those facts as explicit hypotheses
(`GoUnicodeFacts`). -/
structure GoUnicode where
  isLetter : Char → Bool
  isNumber : Char → Bool
  isMarkU : Char → Bool
  isPrintU : Char → Bool
  toLowerU : Char → Char

/-- The regional-indicator block test hard-coded in `sanitizeString`. -/
def isRegionalInd (c : Char) : Bool :=
  decide (0x1F1E6 ≤ c.toNat ∧ c.toNat ≤ 0x1F1FF)

/-- Loop of `sanitizeString` of `utils.go`; the Boolean argument is the
`prevWasRI` flag. -/
def sanitizeAux (u : GoUnicode) : Bool → GoStr → GoStr
  | _, [] => []
  | prevRI, c :: rest =>
    if c.toNat < 32 ∨ c.toNat = 127 then sanitizeAux u prevRI rest
    else if c.toNat < 128 then c :: sanitizeAux u false rest
    else if u.isMarkU c then '?' :: sanitizeAux u prevRI rest
    else if ¬ u.isPrintU c then sanitizeAux u prevRI rest
    else if isRegionalInd c then
      if prevRI then '?' :: sanitizeAux u false rest
      else sanitizeAux u true rest
    else c :: sanitizeAux u false rest

/-- `sanitizeString` of `utils.go`. -/
def sanitizeString (u : GoUnicode) (s : GoStr) : GoStr := sanitizeAux u false s

/-- Loop of `normalizeAndValidateChatName`; the Boolean argument is the
`lastWasDash` flag; the input has already been lowercased.  The error
message is abbreviated (only its presence is relied on). -/
def normCore (u : GoUnicode) : Bool → GoStr → Except GoStr GoStr
  | _, [] => .ok []
  | lastWasDash, c :: rest =>
    if u.isLetter c = true ∨ u.isNumber c = true then
      (normCore u false rest).map (fun r => c :: r)
    else if goIsSpace c = true ∨ c = '-' then
      if lastWasDash then normCore u true rest
      else (normCore u true rest).map (fun r => '-' :: r)
    else .error ("chat name contains invalid character".data)

/-- `normalizeAndValidateChatName` of `utils.go`. -/
def normalizeAndValidateChatName (u : GoUnicode) (name : GoStr) :
    Except GoStr GoStr :=
  (normCore u false (name.map u.toLowerU)).map goTrimDashes

/-- UTF-8 byte length of a Go string (Go `len(s)`). -/
def utf8Len (s : GoStr) : Nat := (s.map Char.utf8Size).sum

/-- The geohash base32 alphabet of `mmcloughlin/geohash`. -/
def geohashAlphabet : GoStr := "0123456789bcdefghjkmnpqrstuvwxyz".data

/-- `geohash.Validate(s) == nil`: at most 64 bits (12 characters, counted
in bytes) and every rune in the base32 alphabet. -/
def validGeohash (s : GoStr) : Bool :=
  decide (5 * utf8Len s ≤ 64) && s.all (fun c => decide (c ∈ geohashAlphabet))

/-- `maxChatNameLen` of `types.go`. -/
def maxChatNameLen : Nat := 12

/-- `seenCacheSize` of `types.go`. -/
def seenCacheSize : Nat := 8192

/-- `MaxMsgLen` of `types.go`. -/
def maxMsgLen : Nat := 2000

/-- `perStreamBufferMax` of `types.go`. -/
def perStreamBufferMax : Nat := 256

/-- `geochatKind` of `types.go`. -/
def geochatKind : Int := 20000

/-- `namedChatKind` of `types.go`. -/
def namedChatKind : Int := 23333

/-- Go `strings.Fields` worker: the first argument accumulates the current
word in reverse. -/
def goFieldsAux : GoStr → GoStr → List GoStr
  | cur, [] => if cur = [] then [] else [cur.reverse]
  | cur, c :: rest =>
    if goIsSpace c then
      if cur = [] then goFieldsAux [] rest
      else cur.reverse :: goFieldsAux [] rest
    else goFieldsAux (c :: cur) rest

/-- Go `strings.Fields`: split around runs of white space. -/
def goFields (s : GoStr) : List GoStr := goFieldsAux [] s

/-- Go `strings.Split(s, ",")` worker. -/
def goSplitCommaAux : GoStr → GoStr → List GoStr
  | cur, [] => [cur.reverse]
  | cur, c :: rest =>
    if c = ',' then cur.reverse :: goSplitCommaAux [] rest
    else goSplitCommaAux (c :: cur) rest

/-- Go `strings.Split(s, ",")`. -/
def goSplitComma (s : GoStr) : List GoStr := goSplitCommaAux [] s

/-- Go `strings.Join`. -/
def goJoin (sep : GoStr) : List GoStr → GoStr
  | [] => []
  | [x] => x
  | x :: rest => x ++ sep ++ goJoin sep rest

/-- `View` of `config.go`. -/
structure View where
  name : GoStr
  isGroup : Bool
  children : List GoStr
  pow : Int
deriving DecidableEq

/-- An entry of the blocked-users list. -/
structure BlockedUser where
  pubkey : GoStr
  nick : GoStr
deriving DecidableEq

/-- A filter or mute entry (`filter` of the config). -/
structure GoFilter where
  pattern : GoStr
  enabled : Bool
deriving DecidableEq

/-- The configuration state the state-management operations mutate.  The
private key and relay-side fields play no role in the claims settled here
and are omitted. -/
structure Config where
  nick : GoStr
  views : List View
  activeViewName : GoStr
  anchorRelays : List GoStr
  blockedUsers : List BlockedUser
  filters : List GoFilter
  mutes : List GoFilter
deriving DecidableEq

/-- A display event as far as the state-management operations are
concerned: its `Type` field and its `Content` field.  Payload-carrying
events (state updates, relay updates) are modelled with empty content. -/
structure DEvent where
  dtype : GoStr
  content : GoStr
deriving DecidableEq

/-- `getActiveView` of `state.go`: the first view whose name matches the
stored active-view name, else the first view, else nothing. -/
def getActiveView (cfg : Config) : Option View :=
  match cfg.views.find? (fun v => decide (v.name = cfg.activeViewName)) with
  | some v => some v
  | none => cfg.views.head?

/-- The `STATE_UPDATE` payload of `sendStateUpdate`. -/
structure StatePayload where
  views : List View
  activeViewIndex : Int
  nick : GoStr
deriving DecidableEq

/-- `sendStateUpdate` of `state.go`: computes the active index, rewriting
the stored active-view name to the first view's name when it matches no
view and the view list is non-empty.  `n` is the client's current nick. -/
def sendStateUpdate (cfg : Config) (n : GoStr) : Config × StatePayload :=
  match cfg.views.findIdx? (fun v => decide (v.name = cfg.activeViewName)) with
  | some i => (cfg, ⟨cfg.views, (i : Int), n⟩)
  | none =>
    match cfg.views with
    | [] => (cfg, ⟨cfg.views, -1, n⟩)
    | v0 :: _ => ({cfg with activeViewName := v0.name}, ⟨cfg.views, 0, n⟩)

/-- The loop state of `joinChats`: the views list and active-view name
being mutated, the accumulated added/existing chat names, and the display
events sent so far. -/
structure JoinSt where
  views : List View
  activeViewName : GoStr
  added : List GoStr
  existing : List GoStr
  events : List DEvent

/-- One iteration of the `joinChats` loop of `state.go`: names that are
not valid geohashes are normalized and length-checked (emitting an `ERROR`
display event and skipping the name on failure); new names are appended as
non-group views, and the first added name becomes the active view.  The
error texts are abbreviated. -/
def joinStep (u : GoUnicode) (st : JoinSt) (rawName : GoStr) : JoinSt :=
  let resolved : Except (Option DEvent) GoStr :=
    if validGeohash rawName then .ok rawName
    else
      match normalizeAndValidateChatName u rawName with
      | .error e => .error (some ⟨"ERROR".data, e⟩)
      | .ok norm =>
        if maxChatNameLen < norm.length then
          .error (some ⟨"ERROR".data, "Chat name is too long".data⟩)
        else if norm.length = 0 then .error none
        else .ok norm
  match resolved with
  | .error oe => { st with events := st.events ++ oe.toList }
  | .ok name =>
    if st.views.any (fun v => !v.isGroup && decide (v.name = name)) then
      { st with existing := st.existing ++ [name] }
    else
      { st with
        views := st.views ++ [⟨name, false, [], 0⟩]
        activeViewName := if st.added = [] then name else st.activeViewName
        added := st.added ++ [name] }

/-- `joinChats` of `state.go`.  Relay-side effects
(`updateAllSubscriptions`) do not touch the configuration and are not
modelled; `saveConfig` persists without mutating.  `n` is the client's
nick (used by the state update). -/
def joinChats (u : GoUnicode) (cfg : Config) (n : GoStr) (payload : GoStr) :
    Config × List DEvent :=
  let chatNames := goFields payload
  if chatNames = [] then (cfg, [])
  else
    let st := chatNames.foldl (joinStep u)
      ⟨cfg.views, cfg.activeViewName, [], [], []⟩
    if st.added ≠ [] then
      let cfg1 := { cfg with views := st.views, activeViewName := st.activeViewName }
      let cfg2 := (sendStateUpdate cfg1 n).1
      (cfg2, st.events ++
        [⟨"STATE_UPDATE".data, []⟩, ⟨"STATUS".data, "Joined new chats".data⟩])
    else if st.existing ≠ [] ∧ chatNames.length = st.existing.length then
      (cfg, st.events ++ [⟨"STATUS".data, "Already in specified chats".data⟩])
    else (cfg, st.events)

/-- The property of every rune `sanitizeString` outputs: not a control
character (below 32, or 127), printable, not a combining mark, not a
regional indicator. -/
def cleanChar (u : GoUnicode) (c : Char) : Prop :=
  32 ≤ c.toNat ∧ c.toNat ≠ 127 ∧ u.isPrintU c = true ∧
  u.isMarkU c = false ∧ isRegionalInd c = false

/-- A concrete instance of `GoUnicode` used by witnesses: faithful to the
Go tables on the ASCII ranges that `GoUnicodeFacts` speaks about.  (Go's
own tables are another instance satisfying the same facts.) -/
def asciiGo : GoUnicode where
  isLetter c := decide ((97 ≤ c.toNat ∧ c.toNat ≤ 122) ∨ (65 ≤ c.toNat ∧ c.toNat ≤ 90))
  isNumber c := decide (48 ≤ c.toNat ∧ c.toNat ≤ 57)
  isMarkU c := decide (768 ≤ c.toNat ∧ c.toNat ≤ 879)
  isPrintU c := decide (32 ≤ c.toNat ∧ c.toNat ≠ 127)
  toLowerU c := c

/-! SHA-256 (Go `crypto/sha256`), over byte lists, with 32-bit words as
naturals reduced mod `2^32`.  Used for group names and pseudonymous
nicknames. -/

/-- Reduce to a 32-bit word. -/
def u32 (n : Nat) : Nat := n % 4294967296

/-- 32-bit rotate right. -/
def rotr32 (n x : Nat) : Nat := u32 ((x >>> n) ||| (x <<< (32 - n)))

/-- The SHA-256 round constants. -/
def sha256K : List Nat :=
  [1116352408, 1899447441, 3049323471, 3921009573, 961987163, 1508970993,
   2453635748, 2870763221, 3624381080, 310598401, 607225278, 1426881987,
   1925078388, 2162078206, 2614888103, 3248222580, 3835390401, 4022224774,
   264347078, 604807628, 770255983, 1249150122, 1555081692, 1996064986,
   2554220882, 2821834349, 2952996808, 3210313671, 3336571891, 3584528711,
   113926993, 338241895, 666307205, 773529912, 1294757372, 1396182291,
   1695183700, 1986661051, 2177026350, 2456956037, 2730485921, 2820302411,
   3259730800, 3345764771, 3516065817, 3600352804, 4094571909, 275423344,
   430227734, 506948616, 659060556, 883997877, 958139571, 1322822218,
   1537002063, 1747873779, 1955562222, 2024104815, 2227730452, 2361852424,
   2428436474, 2756734187, 3204031479, 3329325298]

/-- The SHA-256 initial hash values. -/
def sha256H0 : List Nat :=
  [1779033703, 3144134277, 1013904242, 2773480762,
   1359893119, 2600822924, 528734635, 1541459225]

/-- Big-endian byte representation of `v` in `n` bytes. -/
def beBytes (n v : Nat) : List Nat :=
  (List.range n).map (fun i => (v >>> (8 * (n - 1 - i))) % 256)

/-- SHA-256 message padding. -/
def sha256Pad (m : List Nat) : List Nat :=
  let L := m.length
  let k := (64 + 56 - ((L + 1) % 64)) % 64
  m ++ [0x80] ++ List.replicate k 0 ++ beBytes 8 (8 * L)

/-- Split into 64-byte blocks. -/
def chunks64 (l : List Nat) : List (List Nat) :=
  if h : l = [] then []
  else l.take 64 :: chunks64 (l.drop 64)
termination_by l.length
decreasing_by
  rw [List.length_drop]
  have : 0 < l.length := List.length_pos.mpr h
  omega

/-- The 16 initial 32-bit message-schedule words of a block. -/
def sha256InitWords (chunk : List Nat) : List Nat :=
  (List.range 16).map (fun i =>
    (chunk.getD (4 * i) 0) <<< 24 + (chunk.getD (4 * i + 1) 0) <<< 16 +
    (chunk.getD (4 * i + 2) 0) <<< 8 + chunk.getD (4 * i + 3) 0)

/-- One message-schedule extension step. -/
def sha256ExtendStep (w : List Nat) : List Nat :=
  let i := w.length
  let w15 := w.getD (i - 15) 0
  let w2 := w.getD (i - 2) 0
  let s0 := rotr32 7 w15 ^^^ rotr32 18 w15 ^^^ (w15 >>> 3)
  let s1 := rotr32 17 w2 ^^^ rotr32 19 w2 ^^^ (w2 >>> 10)
  w ++ [u32 (w.getD (i - 16) 0 + s0 + w.getD (i - 7) 0 + s1)]

/-- The full 64-word message schedule. -/
def sha256Schedule (w : List Nat) : List Nat :=
  (List.range 48).foldl (fun acc _ => sha256ExtendStep acc) w

/-- The 64 compression rounds on an 8-word state. -/
def sha256Rounds (w : List Nat) (hs : List Nat) : List Nat :=
  (List.range 64).foldl (fun st i =>
    match st with
    | [a, b, c, d, e, f, g, h] =>
      let s1 := rotr32 6 e ^^^ rotr32 11 e ^^^ rotr32 25 e
      let ch := (e &&& f) ^^^ ((e ^^^ 0xFFFFFFFF) &&& g)
      let temp1 := u32 (h + s1 + ch + sha256K.getD i 0 + w.getD i 0)
      let s0 := rotr32 2 a ^^^ rotr32 13 a ^^^ rotr32 22 a
      let maj := (a &&& b) ^^^ (a &&& c) ^^^ (b &&& c)
      let temp2 := u32 (s0 + maj)
      [u32 (temp1 + temp2), a, b, c, u32 (d + temp1), e, f, g]
    | other => other) hs

/-- Process one block. -/
def sha256Chunk (hs : List Nat) (chunk : List Nat) : List Nat :=
  let out := sha256Rounds (sha256Schedule (sha256InitWords chunk)) hs
  List.zipWith (fun x y => u32 (x + y)) hs out

/-- SHA-256 of a byte list, as 32 bytes. -/
def sha256Bytes (m : List Nat) : List Nat :=
  let hs := (chunks64 (sha256Pad m)).foldl sha256Chunk sha256H0
  hs.foldr (fun h acc => beBytes 4 h ++ acc) []

/-- UTF-8 encoding of one rune (Go `[]byte(string)`). -/
def utf8EncodeChar (c : Char) : List Nat :=
  let n := c.toNat
  if n < 0x80 then [n]
  else if n < 0x800 then [0xC0 ||| (n >>> 6), 0x80 ||| (n &&& 0x3F)]
  else if n < 0x10000 then
    [0xE0 ||| (n >>> 12), 0x80 ||| ((n >>> 6) &&& 0x3F), 0x80 ||| (n &&& 0x3F)]
  else
    [0xF0 ||| (n >>> 18), 0x80 ||| ((n >>> 12) &&& 0x3F),
     0x80 ||| ((n >>> 6) &&& 0x3F), 0x80 ||| (n &&& 0x3F)]

/-- UTF-8 encoding of a Go string. -/
def utf8Encode (s : GoStr) : List Nat :=
  s.foldr (fun c acc => utf8EncodeChar c ++ acc) []

/-- Lowercase hex digits. -/
def hexDigits : GoStr := "0123456789abcdef".data

/-- Hex encoding of one byte. -/
def byteToHex (b : Nat) : GoStr :=
  [hexDigits.getD (b / 16) '0', hexDigits.getD (b % 16) '0']

/-- Hex encoding of a byte list (Go `hex.EncodeToString`). -/
def bytesToHex (bs : List Nat) : GoStr :=
  bs.foldr (fun b acc => byteToHex b ++ acc) []

/-- The toki pona noun list of `utils.go` (75 entries). -/
def tokiPonaNouns : List GoStr :=
  ["ijo", "ilo", "insa", "jan", "jelo", "jo", "kala", "kalama", "kasi", "ken",
   "kili", "kiwen", "ko", "kon", "kulupu", "lape", "laso", "lawa", "len",
   "lili", "linja", "lipu", "loje", "luka", "lukin", "lupa", "ma", "mama",
   "mani", "meli", "mije", "moku", "moli", "monsi", "mun", "musi", "mute",
   "nanpa", "nasin", "nena", "nimi", "noka", "oko", "olin", "open", "pakala",
   "pali", "palisa", "pan", "pilin", "pipi", "poki", "pona", "selo", "sewi",
   "sijelo", "sike", "sitelen", "sona", "soweli", "suli", "suno", "supa",
   "suwi", "telo", "tenpo", "toki", "tomo", "unpa", "uta", "utala", "waso",
   "wawa", "weka", "wile"].map String.data

/-- `npubToTokiPona` of `utils.go`: a deterministic three-word name from a
hash of the public key. -/
def npubToTokiPona (npub : GoStr) : GoStr :=
  let hash := sha256Bytes (utf8Encode npub)
  tokiPonaNouns.getD (hash.getD 0 0 % tokiPonaNouns.length) [] ++ "-".data ++
  tokiPonaNouns.getD (hash.getD 1 0 % tokiPonaNouns.length) [] ++ "-".data ++
  tokiPonaNouns.getD (hash.getD 2 0 % tokiPonaNouns.length) []

/-- Strict lexicographic (bytewise, equivalently runewise) Go string
order `a < b`. -/
def goStrLtB : GoStr → GoStr → Bool
  | [], [] => false
  | [], _ :: _ => true
  | _ :: _, [] => false
  | a :: as', b :: bs' =>
    if a < b then true else if b < a then false else goStrLtB as' bs'

/-- Go string order `a <= b`. -/
def goStrLeB (a b : GoStr) : Bool := !goStrLtB b a

/-- Go `sort.Strings`: since string order is total and antisymmetric, the
ascending result is unique and `mergeSort` computes it. -/
def sortStrings (l : List GoStr) : List GoStr := l.mergeSort goStrLeB

/-- The member-collection loop state of `createGroup`. -/
structure MemberSt where
  valid : List GoStr
  notFound : List GoStr
  seen : List GoStr

/-- One iteration of the member-collection loop of `createGroup`. -/
def memberStep (existing : List GoStr) (st : MemberSt) (m : GoStr) : MemberSt :=
  let t := goTrimSpace m
  if t = [] then st
  else if t ∈ st.seen then st
  else
    let st' := { st with seen := st.seen ++ [t] }
    if t ∈ existing then { st' with valid := st'.valid ++ [t] }
    else { st' with notFound := st'.notFound ++ [t] }

/-- The trimmed, deduplicated members of a `createGroup` payload, split
into existing non-group chats and unknown names. -/
def collectMembers (cfg : Config) (payload : GoStr) : MemberSt :=
  let existing := (cfg.views.filter (fun v => !v.isGroup)).map View.name
  (goSplitComma payload).foldl (memberStep existing) ⟨[], [], []⟩

/-- `createGroup` of `state.go`.  Error texts are abbreviated; relay-side
effects are not modelled. -/
def createGroup (cfg : Config) (n : GoStr) (payload : GoStr) :
    Config × List DEvent :=
  let ms := collectMembers cfg payload
  if ms.notFound ≠ [] then
    (cfg, [⟨"ERROR".data,
      "Cannot create group, chats not found: ".data ++ goJoin ", ".data ms.notFound⟩])
  else if ms.valid.length < 2 then
    (cfg, [⟨"ERROR".data,
      "A group requires at least two unique, existing chats.".data⟩])
  else
    let sorted := sortStrings ms.valid
    let name := "Group-".data ++
      (bytesToHex (sha256Bytes (utf8Encode (goJoin [] sorted)))).take 6
    if cfg.views.any (fun v => decide (v.name = name)) then
      (cfg, [⟨"ERROR".data, "Group with these chats already exists.".data⟩])
    else
      let cfg1 := { cfg with views := cfg.views ++ [⟨name, true, sorted, 0⟩],
                             activeViewName := name }
      ((sendStateUpdate cfg1 n).1, [⟨"STATE_UPDATE".data, []⟩])

/-- `leaveChat` of `state.go`: removes the chat view, prunes it from group
children, and deletes any group left with fewer than 2 children. -/
def leaveChat (cfg : Config) (n : GoStr) (chatName : GoStr) :
    Config × List DEvent :=
  let newViews := cfg.views.filter (fun v => !(!v.isGroup && decide (v.name = chatName)))
  let finalViews := newViews.filterMap (fun v =>
    if !v.isGroup then some v
    else
      let newChildren := v.children.filter (fun child => decide (child ≠ chatName))
      if newChildren.length < 2 then none
      else some { v with children := newChildren })
  let cfg1 := { cfg with
    views := finalViews
    activeViewName := if cfg.activeViewName = chatName then [] else cfg.activeViewName }
  ((sendStateUpdate cfg1 n).1, [⟨"STATE_UPDATE".data, []⟩])

/-- Update the PoW of the first view with the given name (`setPoW` loop
with `break`). -/
def setPowFirst : List View → GoStr → Int → List View
  | [], _, _ => []
  | v :: rest, nm, d =>
    if v.name = nm then { v with pow := d } :: rest
    else v :: setPowFirst rest nm d

/-- `setPoW` of `state.go`. -/
def setPoW (cfg : Config) (n : GoStr) (difficultyStr : GoStr) :
    Config × List DEvent :=
  match goAtoi (goTrimSpace difficultyStr) with
  | none => (cfg, [⟨"ERROR".data, "Invalid PoW difficulty, must be a number.".data⟩])
  | some difficulty =>
    if difficulty < 0 then
      (cfg, [⟨"ERROR".data, "PoW difficulty cannot be negative.".data⟩])
    else
      match getActiveView cfg with
      | none => (cfg, [⟨"ERROR".data, "Cannot set PoW, no active chat or group.".data⟩])
      | some av =>
        let cfg1 := { cfg with views := setPowFirst cfg.views av.name difficulty }
        ((sendStateUpdate cfg1 n).1,
          [⟨"STATE_UPDATE".data, []⟩, ⟨"STATUS".data, "PoW updated.".data⟩])

/-- `clearFilters` of `moderation.go`. -/
def clearFilters (cfg : Config) : Config × List DEvent :=
  ({ cfg with filters := [] }, [⟨"STATUS".data, "Cleared all filters.".data⟩])

/-- `removeFilter` of `moderation.go`.  The derived compiled-pattern cache
(`rebuildRegexCaches`) is a pure function of the stored filters and is not
part of the configuration state. -/
def removeFilter (cfg : Config) (p : GoStr) : Config × List DEvent :=
  if p = [] then clearFilters cfg
  else
    match goAtoi p with
    | none => (cfg, [⟨"ERROR".data, "Invalid filter number.".data⟩])
    | some idx =>
      if idx < 1 ∨ (cfg.filters.length : Int) < idx then
        (cfg, [⟨"ERROR".data, "Invalid filter number.".data⟩])
      else
        ({ cfg with filters := cfg.filters.take (idx.toNat - 1) ++
            cfg.filters.drop idx.toNat },
          [⟨"STATUS".data, "Removed filter.".data⟩])

/-- `maxReconnectAttempts` of `listenForEvents` in `nostr.go`. -/
def maxReconnectAttempts : Nat := 3

/-- The backoff delay of `retryWithBackoff` in `nostr.go`, in nanoseconds:
`min(2^(attempt-1) * 500ms, 30s)`.  Go computes it in `int64` nanoseconds
via `math.Pow`; for every attempt number the listener passes (1 up to
`maxReconnectAttempts`) those values are exact. -/
def retryBackoffDelayNs (attempt : Nat) : Nat :=
  min (2 ^ (attempt - 1) * 500000000) 30000000000

/-- A `nostr.Filter` as `replaceSubscription` builds it and
`mrCurrentChatsLocked` reads it: kinds, the optional `g` and `d` tag-value
lists of the tag map, and the `since` timestamp. -/
structure NFilter where
  kinds : List Int
  gTags : Option (List GoStr)
  dTags : Option (List GoStr)
  since : Int
deriving DecidableEq

/-- A subscription: its filter list. -/
structure NSub where
  filters : List NFilter
deriving DecidableEq

/-- The filter list `replaceSubscription` builds: one filter per chat,
location-tagged for geohash names, topic-tagged otherwise, `since = now`. -/
def buildFilters (now : Int) (chats : List GoStr) : List NFilter :=
  chats.map fun ch =>
    if validGeohash ch then ⟨[geochatKind], some [ch], none, now⟩
    else ⟨[namedChatKind], none, some [ch], now⟩

/-- The `g` then `d` tag values of one filter, as
`mrCurrentChatsLocked` walks them. -/
def chatsOfFilter (f : NFilter) : List GoStr :=
  f.gTags.getD [] ++ f.dTags.getD []

/-- Order-preserving deduplicating append (the `seen` set of
`mrCurrentChatsLocked`; the output list carries exactly the seen set). -/
def dedupAppend (out : List GoStr) (chs : List GoStr) : List GoStr :=
  chs.foldl (fun acc ch => if ch ∈ acc then acc else acc ++ [ch]) out

/-- `mrCurrentChatsLocked` of `utils.go`: the deduplicated chat names of
the current subscription's filters (empty for no subscription). -/
def mrCurrentChats : Option NSub → List GoStr
  | none => []
  | some sub => sub.filters.foldl (fun acc f => dedupAppend acc (chatsOfFilter f)) []

/-- `sameStringSet` of `utils.go`: equal length and every element of `b`
present in `a` (unordered set comparison). -/
def sameStringSet (a b : List GoStr) : Bool :=
  decide (a.length = b.length) && b.all (fun s => decide (s ∈ a))

/-- The subscription-state effect of `replaceSubscription` of `nostr.go`
on one relay: if the desired chat set equals the current one (as unordered
sets) nothing happens; otherwise a new subscription is built and the old
one, when present, is unsubscribed.  Returns (new subscription state,
subscribe performed, unsubscribe performed). -/
def replaceSubscription (now : Int) (sub : Option NSub) (chats : List GoStr) :
    Option NSub × Bool × Bool :=
  if sameStringSet (mrCurrentChats sub) chats then (sub, false, false)
  else (some ⟨buildFilters now chats⟩, true, sub.isSome)

/-- The `NEW_MESSAGE` display event built by `processEvent`. -/
structure MsgEvent where
  timestamp : GoStr
  nick : GoStr
  fullPubKey : GoStr
  shortPubKey : GoStr
  isOwnMessage : Bool
  content : GoStr
  idSuffix : GoStr
  chat : GoStr
  relayURL : GoStr
deriving DecidableEq

/-- `orderItem` of `types.go`: a display event with its protocol
timestamp and event id. -/
structure OrderItem where
  ev : MsgEvent
  createdAt : Int
  id : GoStr
deriving DecidableEq

/-- The `less` closure of `flushOrdered`'s `sort.Slice` call: earlier
timestamp first, ties broken by Go string order on the id (bytewise,
equivalently runewise on valid UTF-8). -/
def orderLess (a b : OrderItem) : Bool :=
  if a.createdAt = b.createdAt then goStrLtB a.id b.id
  else decide (a.createdAt < b.createdAt)

/-- `flushOrdered`'s sort of the buffered items.  Go's `sort.Slice` is an
unspecified (unstable) sorting algorithm; `goSortedBy` below is its
contract and this `mergeSort` realization satisfies it. -/
def flushOrdered (buf : List OrderItem) : List OrderItem :=
  buf.mergeSort (fun a b => !orderLess b a)

/-- The `sort.Slice` contract: the output is a permutation of the buffer
that is pairwise non-inverted under the `less` function. -/
def goSortedBy (input output : List OrderItem) : Prop :=
  output.Perm input ∧ output.Pairwise (fun a b => orderLess b a = false)

/-- The claim's key order: non-decreasing in the pair
(protocol timestamp, event id). -/
def keyLe (a b : OrderItem) : Prop :=
  a.createdAt < b.createdAt ∨
    (a.createdAt = b.createdAt ∧ (a.id = b.id ∨ goStrLtB a.id b.id = true))

/-- Strict version of `keyLe`. -/
def keyLt (a b : OrderItem) : Prop :=
  a.createdAt < b.createdAt ∨
    (a.createdAt = b.createdAt ∧ goStrLtB a.id b.id = true)

/-- `userContextCacheSize` of `types.go`. -/
def userContextCacheSize : Nat := 4096

/-- A compiled mute/filter pattern (`compiledPattern` of `types.go`): a
compiled regular expression is its matching function. -/
structure CompiledPat where
  raw : GoStr
  regexFn : Option (GoStr → Bool)
  literal : GoStr

/-- `matchesAny` of `moderation.go`.  Substring containment of valid
UTF-8 byte strings coincides with rune-level infix (UTF-8 is
self-synchronizing). -/
def matchesAny (content : GoStr) (patterns : List CompiledPat) : Bool :=
  patterns.any fun pat =>
    match pat.regexFn with
    | some f => f content
    | none => decide (pat.literal ≠ []) && decide (pat.literal <:+: content)

/-- `truncateString` of `utils.go`: at most `maxRunes` runes, else the
rune prefix with an ellipsis (the Go code slices at the byte index of the
rune boundary). -/
def truncateString (s : GoStr) (maxRunes : Nat) : GoStr :=
  if s.length ≤ maxRunes then s
  else s.take maxRunes ++ "...".data

/-- `safeSuffix` of `utils.go`: the last `n` bytes.  On the ASCII event
ids and public keys it is applied to, bytes coincide with runes. -/
def safeSuffix (s : GoStr) (n : Nat) : GoStr :=
  if s.length ≤ n then s else s.drop (s.length - n)

/-- Two-digit decimal padding. -/
def pad2 (n : Nat) : GoStr :=
  if n < 10 then '0' :: (toString n).data else (toString n).data

/-- The `15:04:05` clock rendering of a Unix timestamp.  Go formats in
the local time zone; the zone is modelled as a fixed offset in seconds. -/
def formatClock (tzOffsetSec : Int) (unix : Int) : GoStr :=
  let t := ((unix + tzOffsetSec).emod 86400).toNat
  pad2 (t / 3600) ++ ":".data ++ pad2 (t % 3600 / 60) ++ ":".data ++ pad2 (t % 60)

/-- The seen-cache (`hashicorp/golang-lru`, keys only): most recent
first; `Add` of a fresh key prepends and evicts the oldest beyond the
capacity. -/
def lruAdd (cap : Nat) (key : GoStr) (cache : List GoStr) : List GoStr :=
  (key :: cache).take cap

/-- `userContext` of `types.go`. -/
structure UserCtx where
  nick : GoStr
  chat : GoStr
  shortPubKey : GoStr
deriving DecidableEq

/-- The user-context LRU `Add`: insert or refresh at the front, evict the
oldest beyond the capacity. -/
def ucAdd (cap : Nat) (k : GoStr) (v : UserCtx)
    (l : List (GoStr × UserCtx)) : List (GoStr × UserCtx) :=
  ((k, v) :: l.filter (fun p => decide (p.1 ≠ k))).take cap

/-- `ChatSession` of `types.go`. -/
structure ChatSession where
  privKey : GoStr
  pubKey : GoStr
  nick : GoStr
  customNick : Bool
deriving DecidableEq

/-- The immutable inputs of `processEvent` during one ingestion step: the
configuration, the unicode tables, the compiled mute and filter caches,
the client key, the per-chat sessions and the display time zone. -/
structure RunCfg where
  cfg : Config
  uni : GoUnicode
  mutesCompiled : List CompiledPat
  filtersCompiled : List CompiledPat
  pk : GoStr
  chatKeys : List (GoStr × ChatSession)
  tzOffsetSec : Int

/-- The mutable ingestion state `processEvent` touches: the seen-cache
and the user-context cache. -/
structure PipeState where
  seenCache : List GoStr
  userCtx : List (GoStr × UserCtx)

/-- A display handoff to the ordering buffer: the arguments of the
`enqueueOrdered` call made by `processEvent`. -/
structure EmitItem where
  streamKey : GoStr
  ev : MsgEvent
  createdAt : Int
  id : GoStr

/-- The chat identifier of an event: the value of its `g` tag, else of
its `d` tag, else empty. -/
def eventChatOf (ev : NEvent) : GoStr :=
  match findTag ev.tags "g".data with
  | some gTag => gTag.getD 1 []
  | none =>
    match findTag ev.tags "d".data with
    | some dTag => dTag.getD 1 []
    | none => []

/-- `effectivePoWForChat` of `nostr.go`: the chat's own positive PoW, else
the active group's positive PoW when the chat is one of its children,
else 0. -/
def effectivePoWForChat (cfg : Config) (chat : GoStr) : Int :=
  match cfg.views.find? (fun v =>
      !v.isGroup && decide (v.name = chat) && decide (v.pow > 0)) with
  | some v => v.pow
  | none =>
    match getActiveView cfg with
    | some av =>
      if av.isGroup && decide (av.pow > 0) && decide (chat ∈ av.children) then
        av.pow
      else 0
    | none => 0

/-- The PoW gate of `processEvent`: reject when the chat is relevant to
the active view and the event fails `isPoWValid`. -/
def powRejected (cfg : Config) (ev : NEvent) (eventChat : GoStr) : Bool :=
  match getActiveView cfg with
  | some av =>
    (if av.isGroup then decide (eventChat ∈ av.children)
      else decide (av.name = eventChat)) &&
      !isPoWValid ev (effectivePoWForChat cfg eventChat)
  | none => false

/-- The ordering stream key of `processEvent`: the active group when the
chat is one of its children, else the chat itself. -/
def streamKeyFor (cfg : Config) (eventChat : GoStr) : GoStr :=
  match getActiveView cfg with
  | some av =>
    if av.isGroup && decide (eventChat ∈ av.children) then
      "group:".data ++ av.name
    else "chat:".data ++ eventChat
  | none => "chat:".data ++ eventChat

/-- The display nickname and short key of `processEvent`: a sanitized
explicit `n` tag when present and non-empty (with the key suffix as short
key), else the pseudonymous toki pona name (with the key prefix). -/
def resolveNick (uni : GoUnicode) (ev : NEvent) : GoStr × GoStr :=
  let nick0 := npubToTokiPona ev.pubkey
  match findTag ev.tags "n".data with
  | some nickTag =>
    let s := sanitizeString uni (nickTag.getD 1 [])
    (if s ≠ [] then s else nick0, safeSuffix ev.pubkey 4)
  | none => (nick0, ev.pubkey.take 4)

/-- `processEvent` of `nostr.go`: the ingestion pipeline for one inbound
event.  Returns the updated state and the display handoff to the ordering
buffer, if any (`none` models every rejection).  Stage order as in the
source: blocked sender, seen-cache dedup, chat tag, PoW gate, content
truncation and sanitization, mutes then filters, nickname resolution and
user-context caching, handoff. -/
def processEvent (rc : RunCfg) (st : PipeState) (ev : NEvent)
    (relayURL : GoStr) : PipeState × Option EmitItem :=
  if rc.cfg.blockedUsers.any (fun b => decide (b.pubkey = ev.pubkey)) then
    (st, none)
  else if ev.id ∈ st.seenCache then (st, none)
  else
    let st1 : PipeState := ⟨lruAdd seenCacheSize ev.id st.seenCache, st.userCtx⟩
    if eventChatOf ev = [] then (st1, none)
    else if powRejected rc.cfg ev (eventChatOf ev) then (st1, none)
    else
      let content := sanitizeString rc.uni (truncateString ev.content maxMsgLen)
      if matchesAny content rc.mutesCompiled then (st1, none)
      else if 0 < rc.filtersCompiled.length ∧
          matchesAny content rc.filtersCompiled = false then (st1, none)
      else
        let nsp := resolveNick rc.uni ev
        let st2 : PipeState := ⟨st1.seenCache,
          ucAdd userContextCacheSize ev.pubkey ⟨nsp.1, eventChatOf ev, nsp.2⟩
            st1.userCtx⟩
        (st2, some ⟨streamKeyFor rc.cfg (eventChatOf ev),
          ⟨formatClock rc.tzOffsetSec ev.createdAt, nsp.1, ev.pubkey, nsp.2,
            decide (ev.pubkey = rc.pk) ||
              rc.chatKeys.any (fun p => decide (ev.pubkey = p.2.pubKey)),
            content, safeSuffix ev.id 4, eventChatOf ev, relayURL⟩,
          ev.createdAt, ev.id⟩)

/-- Run the ingestion pipeline over a sequence of (event, relay)
deliveries, collecting the display handoffs in order. -/
def runPipe (rc : RunCfg) (st : PipeState) :
    List (NEvent × GoStr) → PipeState × List EmitItem
  | [] => (st, [])
  | p :: rest =>
    let stepRes := processEvent rc st p.1 p.2
    let restRes := runPipe rc stepRes.1 rest
    (restRes.1, stepRes.2.toList ++ restRes.2)

/-- Number of display events emitted for one event id over a run starting
from the empty caches. -/
def displayCount (rc : RunCfg) (trace : List (NEvent × GoStr))
    (idv : GoStr) : Nat :=
  ((runPipe rc ⟨[], []⟩ trace).2.filter (fun e => decide (e.id = idv))).length

/-- The single chat view of the dedup counterexample configuration. -/
def cexView : View := ⟨"c".data, false, [], 0⟩

/-- A concrete run configuration: one active chat `c`, no blocks, mutes
or filters, no PoW. -/
def cexCfg : RunCfg :=
  ⟨⟨[], [cexView], "c".data, [], [], [], []⟩, asciiGo, [], [], [], [], 0⟩

/-- The k-th distinct event id of the counterexample. -/
def mkId (k : Nat) : GoStr := List.replicate (k + 1) 'a'

/-- The k-th event of the counterexample: chat `c`, empty content. -/
def mkEv (k : Nat) : NEvent :=
  ⟨mkId k, "p".data, 0, namedChatKind, [["d".data, "c".data]], []⟩

/-- A trace of `seenCacheSize + 1` pairwise-distinct event ids followed by
a replay of the first id. -/
def cexTrace : List (NEvent × GoStr) :=
  (List.range (seenCacheSize + 1)).map (fun k => (mkEv k, "r".data)) ++
    [(mkEv 0, "r".data)]

end StrChat

namespace StrChat

/-- Facts about the real Go unicode tables that the proofs below use: no
combining marks below 128, the printable ASCII range is printable, simple
lowercasing is idempotent and fixes the dash and the geohash alphabet, the
dash is neither letter nor number, and the geohash alphabet is
alphanumeric.  All of them hold for the tables of Go's `unicode` package. -/
structure GoUnicodeFacts (u : GoUnicode) : Prop where
  markAscii : ∀ c : Char, c.toNat < 128 → u.isMarkU c = false
  printAscii : ∀ c : Char, 32 ≤ c.toNat → c.toNat ≤ 126 → u.isPrintU c = true
  lowerIdem : ∀ c, u.toLowerU (u.toLowerU c) = u.toLowerU c
  lowerDash : u.toLowerU '-' = '-'
  letterDash : u.isLetter '-' = false
  numberDash : u.isNumber '-' = false
  lowerGeo : ∀ c, c ∈ geohashAlphabet → u.toLowerU c = c
  alnumGeo : ∀ c, c ∈ geohashAlphabet → (u.isLetter c = true ∨ u.isNumber c = true)

/-- The witness tables satisfy the stated facts. -/
theorem asciiGoFacts : GoUnicodeFacts asciiGo := by
  constructor
  · intro c h
    simp only [asciiGo, decide_eq_false_iff_not]
    omega
  · intro c h1 h2
    simp only [asciiGo, decide_eq_true_eq]
    omega
  · intro c; rfl
  · rfl
  · decide
  · decide
  · intro c _; rfl
  · decide

/-- Claim C1: for every event and required minimum difficulty,
`isPoWValid` holds iff the minimum is nonpositive, or the event's nonce tag
(the last tag named nonce, as the code selects it) declares, in its third
element, a difficulty that parses as a number, is at least the minimum, and
is at most the actual count of leading zero bits of the event id. -/
theorem isPoWValid_iff_spec (ev : NEvent) (d : Int) :
    isPoWValid ev d = true ↔
      (d ≤ 0 ∨
        ∃ t k, findLast ev.tags nonceName = some t ∧
          (t.get? 2).bind (fun s3 => goAtoi (goTrimSpace s3)) = some k ∧
          d ≤ k ∧ k ≤ (countLeadingZeroBits ev.id : Int)) := by
  unfold isPoWValid
  by_cases hd : d ≤ 0
  · simp [hd]
  · simp only [if_neg hd]
    cases h : findLast ev.tags nonceName with
    | none =>
      constructor
      · intro hfalse; exact absurd hfalse (by simp)
      · rintro (h0 | ⟨t', k', ht', _⟩)
        · exact absurd h0 hd
        · exact absurd ht' (by simp)
    | some t =>
      have hex : (d ≤ 0 ∨
          ∃ t' k, some t = some t' ∧
            ((t'.get? 2).bind fun s3 => goAtoi (goTrimSpace s3)) = some k ∧
            d ≤ k ∧ k ≤ (countLeadingZeroBits ev.id : Int)) ↔
          (∃ k, ((t.get? 2).bind fun s3 => goAtoi (goTrimSpace s3)) = some k ∧
            d ≤ k ∧ k ≤ (countLeadingZeroBits ev.id : Int)) := by
        constructor
        · rintro (h0 | ⟨t', k, ht', rest⟩)
          · exact absurd h0 hd
          · injection ht' with ht'; subst ht'; exact ⟨k, rest⟩
        · rintro ⟨k, rest⟩; exact Or.inr ⟨t, k, rfl, rest⟩
      rw [hex]
      dsimp only
      by_cases hlen : t.length < 3
      · have hget : t.get? 2 = none := by
          rw [List.get?_eq_none]
          omega
        rw [if_pos hlen]
        constructor
        · intro hfalse; exact absurd hfalse (by simp)
        · rintro ⟨k, hk, _⟩
          rw [hget] at hk
          exact absurd hk (by simp)
      · have hget : t.get? 2 = some (t.getD 2 []) := by
          rcases hg : t.get? 2 with _ | x
          · rw [List.get?_eq_none] at hg; omega
          · have hx : t.getD 2 [] = x := by rw [List.getD_eq_get?, hg]; rfl
            rw [hx]
        rw [if_neg hlen, hget]
        simp only [Option.some_bind]
        cases hp : goAtoi (goTrimSpace (t.getD 2 [])) with
        | none =>
          constructor
          · intro hfalse; exact absurd hfalse (by simp)
          · rintro ⟨k, hk, _⟩; exact absurd hk (by simp)
        | some k =>
          dsimp only
          by_cases hk : k < d
          · rw [if_pos hk]
            constructor
            · intro hfalse; exact absurd hfalse (by simp)
            · rintro ⟨k', hk', hdk', _⟩
              injection hk' with hk'; subst hk'
              omega
          · rw [if_neg hk]
            simp only [decide_eq_true_eq]
            constructor
            · intro hle
              exact ⟨k, rfl, by omega, hle⟩
            · rintro ⟨k', hk', _, hle'⟩
              injection hk' with hk'; subst hk'
              exact hle'

end StrChat

namespace StrChat

/-- Every rune emitted by the sanitizer loop is clean. -/
theorem sanitizeAux_clean (u : GoUnicode) (hu : GoUnicodeFacts u) (s : GoStr) :
    ∀ b c, c ∈ sanitizeAux u b s → cleanChar u c := by
  have hq : cleanChar u '?' :=
    ⟨by decide, by decide, hu.printAscii _ (by decide) (by decide),
      hu.markAscii _ (by decide), by decide⟩
  induction s with
  | nil => intro b c h; simp [sanitizeAux] at h
  | cons a rest ih =>
    intro b c h
    simp only [sanitizeAux] at h
    by_cases h1 : a.toNat < 32 ∨ a.toNat = 127
    · rw [if_pos h1] at h
      exact ih b c h
    rw [if_neg h1] at h
    by_cases h2 : a.toNat < 128
    · rw [if_pos h2] at h
      rcases List.mem_cons.mp h with rfl | h'
      · exact ⟨by omega, by omega, hu.printAscii _ (by omega) (by omega),
          hu.markAscii _ (by omega),
          by simp only [isRegionalInd, decide_eq_false_iff_not]; omega⟩
      · exact ih false c h'
    rw [if_neg h2] at h
    by_cases h3 : u.isMarkU a = true
    · rw [if_pos h3] at h
      rcases List.mem_cons.mp h with rfl | h'
      · exact hq
      · exact ih b c h'
    rw [if_neg h3] at h
    by_cases h4 : u.isPrintU a = true
    · rw [if_neg (by simp [h4])] at h
      by_cases h5 : isRegionalInd a = true
      · rw [if_pos h5] at h
        cases b with
        | false =>
          rw [if_neg (by simp)] at h
          exact ih true c h
        | true =>
          rw [if_pos rfl] at h
          rcases List.mem_cons.mp h with rfl | h'
          · exact hq
          · exact ih false c h'
      · rw [if_neg h5] at h
        rcases List.mem_cons.mp h with rfl | h'
        · exact ⟨by omega, by omega, h4,
            Bool.not_eq_true _ ▸ h3, Bool.not_eq_true _ ▸ h5⟩
        · exact ih false c h'
    · rw [if_pos (by simp [h4])] at h
      exact ih b c h

/-- A string of clean runes is a fixed point of the sanitizer loop,
whatever the regional-indicator flag. -/
theorem sanitizeAux_fixed (u : GoUnicode) (s : GoStr)
    (hs : ∀ c ∈ s, cleanChar u c) : ∀ b, sanitizeAux u b s = s := by
  induction s with
  | nil => intro b; rfl
  | cons a rest ih =>
    intro b
    obtain ⟨ha1, ha2, ha3, ha4, ha5⟩ := hs a (List.mem_cons_self a rest)
    have hrest := fun c hc => hs c (List.mem_cons_of_mem a hc)
    simp only [sanitizeAux]
    rw [if_neg (by omega)]
    by_cases hlt : a.toNat < 128
    · rw [if_pos hlt, ih hrest false]
    · rw [if_neg hlt, if_neg (by simp [ha4]), if_neg (by simp [ha3]),
        if_neg (by simp [ha5]), ih hrest false]

end StrChat

namespace StrChat

/-- Claim C10: `sanitizeString` is idempotent, and its output contains no
control characters (code points below 32, or 127), no non-printable runes,
no combining marks and no regional indicators — for every table instance
satisfying the ASCII facts of the Go tables. -/
theorem sanitizeString_idem_and_clean (u : GoUnicode) (hu : GoUnicodeFacts u)
    (s : GoStr) :
    sanitizeString u (sanitizeString u s) = sanitizeString u s ∧
    ∀ c ∈ sanitizeString u s, cleanChar u c := by
  have hmem : ∀ c ∈ sanitizeString u s, cleanChar u c :=
    fun c hc => sanitizeAux_clean u hu s false c hc
  exact ⟨sanitizeAux_fixed u (sanitizeString u s) hmem false, hmem⟩

/-- Witness for C10 at the concrete ASCII tables and a concrete string. -/
theorem sanitizeString_idem_and_clean_witness :
    sanitizeString asciiGo (sanitizeString asciiGo "hi there".data) =
      sanitizeString asciiGo "hi there".data ∧
    ∀ c ∈ sanitizeString asciiGo "hi there".data, cleanChar asciiGo c :=
  sanitizeString_idem_and_clean asciiGo asciiGoFacts "hi there".data

end StrChat

namespace StrChat

/-- The "no two adjacent dashes" relation of normalized chat names. -/
theorem dropWhile_head_not {p : Char → Bool} :
    ∀ (l : GoStr) (a : Char), (l.dropWhile p).head? = some a → p a = false := by
  intro l
  induction l with
  | nil => intro a h; simp at h
  | cons x xs ih =>
    intro a h
    by_cases hp : p x
    · rw [List.dropWhile_cons, if_pos hp] at h
      exact ih a h
    · rw [List.dropWhile_cons, if_neg hp] at h
      injection h with h
      subst h
      exact Bool.not_eq_true _ ▸ hp

/-- `dropWhile` is the identity when the head fails the test. -/
theorem dropWhile_noop {p : Char → Bool} {l : GoStr}
    (h : ∀ a, l.head? = some a → p a = false) : l.dropWhile p = l := by
  cases l with
  | nil => rfl
  | cons x xs => rw [List.dropWhile_cons, if_neg (by simp [h x rfl])]

/-- `goTrimDashes l` is an infix of `l`. -/
theorem trimDashes_within (l : GoStr) : goTrimDashes l <:+: l := by
  unfold goTrimDashes
  have h1 : l.dropWhile (· = '-') <:+ l := List.dropWhile_suffix _
  have h2 : (l.dropWhile (· = '-')).reverse.dropWhile (· = '-') <:+
      (l.dropWhile (· = '-')).reverse := List.dropWhile_suffix _
  have h3 : ((l.dropWhile (· = '-')).reverse.dropWhile (· = '-')).reverse <+:
      l.dropWhile (· = '-') := by
    apply List.reverse_suffix.mp
    rw [List.reverse_reverse]
    exact h2
  exact h3.isInfix.trans h1.isInfix

/-- Membership transfers from the trimmed name to the original. -/
theorem trimDashes_mem {l : GoStr} {c : Char} (h : c ∈ goTrimDashes l) :
    c ∈ l :=
  (trimDashes_within l).mem h

/-- The trimmed name does not end with a dash. -/
theorem trimDashes_getLast {l : GoStr} {a : Char}
    (h : (goTrimDashes l).getLast? = some a) : a ≠ '-' := by
  unfold goTrimDashes at h
  rw [List.getLast?_reverse] at h
  have := dropWhile_head_not _ a h
  simpa using this

/-- The trimmed name does not start with a dash. -/
theorem trimDashes_head {l : GoStr} {a : Char}
    (h : (goTrimDashes l).head? = some a) : a ≠ '-' := by
  unfold goTrimDashes at h
  rw [List.head?_reverse] at h
  set B := (l.dropWhile (· = '-')).reverse.dropWhile (· = '-') with hB
  obtain ⟨t, ht⟩ : B <:+ (l.dropWhile (· = '-')).reverse := List.dropWhile_suffix _
  have hBne : B ≠ [] := by
    intro hnil
    rw [hnil] at h
    simp at h
  have hlast : (l.dropWhile (· = '-')).reverse.getLast? = some a := by
    rw [← ht, List.getLast?_append, h]
    rfl
  rw [List.getLast?_reverse] at hlast
  have := dropWhile_head_not _ a hlast
  simpa using this

/-- Trimming is the identity on dash-free boundaries. -/
theorem trimDashes_noop {l : GoStr}
    (h1 : ∀ a, l.head? = some a → a ≠ '-')
    (h2 : ∀ a, l.getLast? = some a → a ≠ '-') : goTrimDashes l = l := by
  have e1 : l.dropWhile (· = '-') = l :=
    dropWhile_noop (fun a ha => by simpa using h1 a ha)
  have e2 : l.reverse.dropWhile (· = '-') = l.reverse :=
    dropWhile_noop (fun a ha => by
      rw [List.head?_reverse] at ha
      simpa using h2 a ha)
  unfold goTrimDashes
  rw [e1, e2, List.reverse_reverse]

/-- Trimming dashes is idempotent. -/
theorem trimDashes_idem (l : GoStr) :
    goTrimDashes (goTrimDashes l) = goTrimDashes l :=
  trimDashes_noop (fun _ h => trimDashes_head h) (fun _ h => trimDashes_getLast h)

/-- A list of runes with no dash at all satisfies the no-double-dash
chain. -/
theorem chain'_of_no_dash {l : GoStr} (h : ∀ c ∈ l, c ≠ '-') :
    l.Chain' (fun x y => ¬(x = '-' ∧ y = '-')) := by
  induction l with
  | nil => exact List.chain'_nil
  | cons a rest ih =>
    refine List.chain'_cons'.mpr ⟨?_, ih (fun c hc => h c (List.mem_cons_of_mem a hc))⟩
    rintro y _ ⟨ha, _⟩
    exact h a (List.mem_cons_self a rest) ha

/-- A map that fixes every member of a list is the identity on it. -/
theorem map_self {f : Char → Char} {l : GoStr} (h : ∀ a ∈ l, f a = a) :
    l.map f = l := by
  rw [List.map_congr_left (g := id) h, List.map_id]

/-- A rune list is at most as long as its UTF-8 encoding. -/
theorem length_le_utf8Len (l : GoStr) : l.length ≤ utf8Len l := by
  induction l with
  | nil => simp [utf8Len]
  | cons a rest ih =>
    have := Char.utf8Size_pos a
    simp only [utf8Len, List.map_cons, List.sum_cons, List.length_cons] at *
    omega

end StrChat

namespace StrChat

/-- Every rune of a successfully normalized name is a dash or an
alphanumeric rune of the (lowercased) input. -/
theorem normCore_chars (u : GoUnicode) :
    ∀ (l : GoStr) (b : Bool) (r : GoStr), normCore u b l = .ok r →
      ∀ c ∈ r, c = '-' ∨
        ((u.isLetter c = true ∨ u.isNumber c = true) ∧ c ∈ l) := by
  intro l
  induction l with
  | nil =>
    intro b r h c hc
    simp only [normCore] at h
    injection h with h
    subst h
    simp at hc
  | cons a rest ih =>
    intro b r h c hc
    simp only [normCore] at h
    by_cases h1 : u.isLetter a = true ∨ u.isNumber a = true
    · rw [if_pos h1] at h
      cases hrec : normCore u false rest with
      | error e => rw [hrec] at h; simp [Except.map] at h
      | ok r' =>
        rw [hrec] at h
        simp only [Except.map] at h
        injection h with h
        subst h
        rcases List.mem_cons.mp hc with rfl | h'
        · exact Or.inr ⟨h1, List.mem_cons_self _ _⟩
        · rcases ih false r' hrec c h' with hd | ⟨ha, hm⟩
          · exact Or.inl hd
          · exact Or.inr ⟨ha, List.mem_cons_of_mem _ hm⟩
    · rw [if_neg h1] at h
      by_cases h2 : goIsSpace a = true ∨ a = '-'
      · rw [if_pos h2] at h
        cases b with
        | true =>
          rw [if_pos rfl] at h
          rcases ih true r h c hc with hd | ⟨ha, hm⟩
          · exact Or.inl hd
          · exact Or.inr ⟨ha, List.mem_cons_of_mem _ hm⟩
        | false =>
          rw [if_neg (by simp)] at h
          cases hrec : normCore u true rest with
          | error e => rw [hrec] at h; simp [Except.map] at h
          | ok r' =>
            rw [hrec] at h
            simp only [Except.map] at h
            injection h with h
            subst h
            rcases List.mem_cons.mp hc with rfl | h'
            · exact Or.inl rfl
            · rcases ih true r' hrec c h' with hd | ⟨ha, hm⟩
              · exact Or.inl hd
              · exact Or.inr ⟨ha, List.mem_cons_of_mem _ hm⟩
      · rw [if_neg h2] at h
        exact absurd h (by simp)

/-- A successfully normalized name has no two adjacent dashes, and does
not start with a dash when the dash flag is set. -/
theorem normCore_chain (u : GoUnicode) (hu : GoUnicodeFacts u) :
    ∀ (l : GoStr) (b : Bool) (r : GoStr), normCore u b l = .ok r →
      ((b = true → r.head? ≠ some '-') ∧
        r.Chain' (fun x y => ¬(x = '-' ∧ y = '-'))) := by
  intro l
  induction l with
  | nil =>
    intro b r h
    simp only [normCore] at h
    injection h with h
    subst h
    exact ⟨fun _ => by simp, List.chain'_nil⟩
  | cons a rest ih =>
    intro b r h
    simp only [normCore] at h
    by_cases h1 : u.isLetter a = true ∨ u.isNumber a = true
    · rw [if_pos h1] at h
      cases hrec : normCore u false rest with
      | error e => rw [hrec] at h; simp [Except.map] at h
      | ok r' =>
        rw [hrec] at h
        simp only [Except.map] at h
        injection h with h
        subst h
        have hadash : a ≠ '-' := by
          intro ha
          subst ha
          rw [hu.letterDash, hu.numberDash] at h1
          simp at h1
        constructor
        · intro _ hh
          injection hh with hh
          exact hadash hh
        · refine List.chain'_cons'.mpr ⟨?_, (ih false r' hrec).2⟩
          rintro y _ ⟨ha, _⟩
          exact hadash ha
    · rw [if_neg h1] at h
      by_cases h2 : goIsSpace a = true ∨ a = '-'
      · rw [if_pos h2] at h
        cases b with
        | true =>
          rw [if_pos rfl] at h
          exact ⟨fun _ => (ih true r h).1 rfl, (ih true r h).2⟩
        | false =>
          rw [if_neg (by simp)] at h
          cases hrec : normCore u true rest with
          | error e => rw [hrec] at h; simp [Except.map] at h
          | ok r' =>
            rw [hrec] at h
            simp only [Except.map] at h
            injection h with h
            subst h
            constructor
            · intro hb; cases hb
            · refine List.chain'_cons'.mpr ⟨?_, (ih true r' hrec).2⟩
              rintro y hy ⟨_, hy'⟩
              subst hy'
              exact (ih true r' hrec).1 rfl (Option.mem_def.mp hy)
      · rw [if_neg h2] at h
        exact absurd h (by simp)

/-- A lowercase alphanumeric-and-single-dash string with dash-free start
(under the dash flag) is a fixed point of the normalization loop. -/
theorem normCore_fixed (u : GoUnicode) (hu : GoUnicodeFacts u) :
    ∀ (l : GoStr) (b : Bool),
      (∀ c ∈ l, (u.isLetter c = true ∨ u.isNumber c = true) ∨ c = '-') →
      l.Chain' (fun x y => ¬(x = '-' ∧ y = '-')) →
      (b = true → l.head? ≠ some '-') →
      normCore u b l = .ok l := by
  intro l
  induction l with
  | nil => intro b _ _ _; rfl
  | cons a rest ih =>
    intro b hchars hch hhd
    simp only [normCore]
    rcases hchars a (List.mem_cons_self a rest) with halnum | hdash
    · rw [if_pos halnum]
      rw [ih false (fun c hc => hchars c (List.mem_cons_of_mem a hc))
        (List.chain'_cons'.mp hch).2 (fun hb => by cases hb)]
      rfl
    · subst hdash
      have hna : ¬(u.isLetter '-' = true ∨ u.isNumber '-' = true) := by
        rw [hu.letterDash, hu.numberDash]
        simp
      rw [if_neg hna, if_pos (Or.inr rfl)]
      cases b with
      | true => exact absurd rfl (hhd rfl)
      | false =>
        rw [if_neg (by simp)]
        have hrest : rest.head? ≠ some '-' := by
          intro hh
          exact (List.chain'_cons'.mp hch).1 '-' (by rw [hh]; rfl) ⟨rfl, rfl⟩
        rw [ih true (fun c hc => hchars c (List.mem_cons_of_mem _ hc))
          (List.chain'_cons'.mp hch).2 (fun _ => hrest)]
        rfl

end StrChat

namespace StrChat

/-- Normalization of chat names is idempotent (under the ASCII facts of
the Go tables). -/
theorem normalize_idem (u : GoUnicode) (hu : GoUnicodeFacts u) (s n : GoStr)
    (h : normalizeAndValidateChatName u s = .ok n) :
    normalizeAndValidateChatName u n = .ok n := by
  unfold normalizeAndValidateChatName at h ⊢
  cases hrec : normCore u false (s.map u.toLowerU) with
  | error e => rw [hrec] at h; simp [Except.map] at h
  | ok r =>
    rw [hrec] at h
    simp only [Except.map] at h
    injection h with h
    subst h
    have hchars := normCore_chars u _ _ _ hrec
    have hchain := (normCore_chain u hu _ _ _ hrec).2
    have hmemn : ∀ c ∈ goTrimDashes r, c = '-' ∨
        ((u.isLetter c = true ∨ u.isNumber c = true) ∧
          c ∈ s.map u.toLowerU) :=
      fun c hc => hchars c (trimDashes_mem hc)
    have hmap : (goTrimDashes r).map u.toLowerU = goTrimDashes r := by
      apply map_self
      intro a ha
      rcases hmemn a ha with rfl | ⟨_, hm⟩
      · exact hu.lowerDash
      · obtain ⟨x, _, rfl⟩ := List.mem_map.mp hm
        exact hu.lowerIdem x
    have hchain' : (goTrimDashes r).Chain' (fun x y => ¬(x = '-' ∧ y = '-')) :=
      hchain.infix (trimDashes_within r)
    have hfix : normCore u false (goTrimDashes r) = .ok (goTrimDashes r) := by
      apply normCore_fixed u hu _ false
      · intro c hc
        rcases hmemn c hc with rfl | ⟨ha, _⟩
        · exact Or.inr rfl
        · exact Or.inl ha
      · exact hchain'
      · intro hb; cases hb
    rw [hmap, hfix]
    simp only [Except.map]
    rw [trimDashes_idem]

/-- A name accepted by `geohash.Validate` is lowercase base32: it is a
fixed point of normalization and within the chat-name length bound. -/
theorem geohash_norm (u : GoUnicode) (hu : GoUnicodeFacts u) (g : GoStr)
    (hg : validGeohash g = true) :
    normalizeAndValidateChatName u g = .ok g ∧ g.length ≤ maxChatNameLen := by
  have hg' := hg
  unfold validGeohash at hg'
  rw [Bool.and_eq_true] at hg'
  obtain ⟨hd, hall⟩ := hg'
  have hlen' : 5 * utf8Len g ≤ 64 := of_decide_eq_true hd
  have hmem : ∀ c ∈ g, c ∈ geohashAlphabet :=
    fun c hc => of_decide_eq_true (List.all_eq_true.mp hall c hc)
  have hnodash : ∀ c ∈ g, c ≠ '-' := by
    intro c hc
    exact (by decide : ∀ x ∈ geohashAlphabet, x ≠ '-') c (hmem c hc)
  constructor
  · unfold normalizeAndValidateChatName
    have hmap : g.map u.toLowerU = g := map_self (fun a ha => hu.lowerGeo a (hmem a ha))
    rw [hmap]
    rw [normCore_fixed u hu g false
      (fun c hc => Or.inl (hu.alnumGeo c (hmem c hc)))
      (chain'_of_no_dash hnodash) (fun hb => by cases hb)]
    simp only [Except.map]
    rw [trimDashes_noop
      (fun a ha => hnodash a (List.mem_of_mem_head? (Option.mem_def.mpr ha)))
      (fun a ha => hnodash a (by
        have : a ∈ g.reverse.head? := by rw [List.head?_reverse]; exact Option.mem_def.mpr ha
        exact List.mem_reverse.mp (List.mem_of_mem_head? this)))]
  · have := length_le_utf8Len g
    unfold maxChatNameLen
    omega

end StrChat

namespace StrChat

/-- One `joinChats` loop step only appends views whose names are
normalization fixed points within the length bound. -/
theorem joinStep_views (u : GoUnicode) (hu : GoUnicodeFacts u) (st : JoinSt)
    (w : GoStr) :
    ∀ v ∈ (joinStep u st w).views, v ∈ st.views ∨
      (v.isGroup = false ∧ v.name.length ≤ maxChatNameLen ∧
        normalizeAndValidateChatName u v.name = .ok v.name) := by
  intro v hv
  unfold joinStep at hv
  by_cases hgeo : validGeohash w = true
  · rw [if_pos hgeo] at hv
    dsimp only at hv
    by_cases hex : st.views.any (fun v => !v.isGroup && decide (v.name = w)) = true
    · rw [if_pos hex] at hv
      exact Or.inl hv
    · rw [if_neg hex] at hv
      dsimp only at hv
      rcases List.mem_append.mp hv with hin | hnew
      · exact Or.inl hin
      · rcases List.mem_singleton.mp hnew with rfl
        obtain ⟨hn, hl⟩ := geohash_norm u hu w hgeo
        exact Or.inr ⟨rfl, hl, hn⟩
  · rw [if_neg hgeo] at hv
    cases hnorm : normalizeAndValidateChatName u w with
    | error e =>
      rw [hnorm] at hv
      exact Or.inl hv
    | ok norm =>
      rw [hnorm] at hv
      dsimp only at hv
      by_cases hlong : maxChatNameLen < norm.length
      · rw [if_pos hlong] at hv
        exact Or.inl hv
      · rw [if_neg hlong] at hv
        by_cases hzero : norm.length = 0
        · rw [if_pos hzero] at hv
          exact Or.inl hv
        · rw [if_neg hzero] at hv
          dsimp only at hv
          by_cases hex : st.views.any (fun v => !v.isGroup && decide (v.name = norm)) = true
          · rw [if_pos hex] at hv
            exact Or.inl hv
          · rw [if_neg hex] at hv
            dsimp only at hv
            rcases List.mem_append.mp hv with hin | hnew
            · exact Or.inl hin
            · rcases List.mem_singleton.mp hnew with rfl
              exact Or.inr ⟨rfl, Nat.le_of_not_lt hlong,
                normalize_idem u hu w norm hnorm⟩

/-- `joinChats` loop steps only append display events. -/
theorem joinStep_events_mono (u : GoUnicode) (st : JoinSt) (w : GoStr) :
    ∀ e ∈ st.events, e ∈ (joinStep u st w).events := by
  intro e he
  unfold joinStep
  by_cases hgeo : validGeohash w = true
  · rw [if_pos hgeo]
    dsimp only
    by_cases hex : st.views.any (fun v => !v.isGroup && decide (v.name = w)) = true
    · rw [if_pos hex]; exact he
    · rw [if_neg hex]; exact he
  · rw [if_neg hgeo]
    cases hnorm : normalizeAndValidateChatName u w with
    | error er => exact List.mem_append_left _ he
    | ok norm =>
      dsimp only
      by_cases hlong : maxChatNameLen < norm.length
      · rw [if_pos hlong]
        exact List.mem_append_left _ he
      · rw [if_neg hlong]
        by_cases hzero : norm.length = 0
        · rw [if_pos hzero]
          exact List.mem_append_left _ he
        · rw [if_neg hzero]
          dsimp only
          by_cases hex : st.views.any (fun v => !v.isGroup && decide (v.name = norm)) = true
          · rw [if_pos hex]; exact he
          · rw [if_neg hex]; exact he

/-- Folding the `joinChats` loop preserves the view property. -/
theorem joinFold_views (u : GoUnicode) (hu : GoUnicodeFacts u)
    (P : View → Prop) :
    ∀ (names : List GoStr) (st : JoinSt), (∀ v ∈ st.views, P v) →
      (∀ v, (v.isGroup = false ∧ v.name.length ≤ maxChatNameLen ∧
        normalizeAndValidateChatName u v.name = .ok v.name) → P v) →
      ∀ v ∈ (names.foldl (joinStep u) st).views, P v := by
  intro names
  induction names with
  | nil => intro st hst _ v hv; exact hst v hv
  | cons w rest ih =>
    intro st hst hgood v hv
    rw [List.foldl_cons] at hv
    refine ih (joinStep u st w) ?_ hgood v hv
    intro v' hv'
    rcases joinStep_views u hu st w v' hv' with hin | hnew
    · exact hst v' hin
    · exact hgood v' hnew

/-- Folding the `joinChats` loop preserves already-emitted events. -/
theorem joinFold_events_mono (u : GoUnicode) :
    ∀ (names : List GoStr) (st : JoinSt) (e : DEvent), e ∈ st.events →
      e ∈ (names.foldl (joinStep u) st).events := by
  intro names
  induction names with
  | nil => intro st e he; exact he
  | cons w rest ih =>
    intro st e he
    rw [List.foldl_cons]
    exact ih _ e (joinStep_events_mono u st w e he)

/-- A name whose normal form is too long makes the `joinChats` loop emit
an `ERROR` display event. -/
theorem joinFold_error (u : GoUnicode) :
    ∀ (names : List GoStr) (st : JoinSt) (w nw : GoStr), w ∈ names →
      validGeohash w = false → normalizeAndValidateChatName u w = .ok nw →
      maxChatNameLen < nw.length →
      ∃ e ∈ (names.foldl (joinStep u) st).events, e.dtype = "ERROR".data := by
  intro names
  induction names with
  | nil => intro st w nw hmem; cases hmem
  | cons x rest ih =>
    intro st w nw hmem hgeo hnorm hlong
    rw [List.foldl_cons]
    rcases List.mem_cons.mp hmem with rfl | hmem'
    · refine ⟨⟨"ERROR".data, "Chat name is too long".data⟩, ?_, rfl⟩
      apply joinFold_events_mono
      unfold joinStep
      rw [if_neg (by rw [hgeo]; simp), hnorm]
      dsimp only
      rw [if_pos hlong]
      dsimp only [Option.toList]
      exact List.mem_append_right _ (by simp)
    · exact ih (joinStep u st x) w nw hmem' hgeo hnorm hlong

/-- `sendStateUpdate` never changes the view list. -/
theorem sendStateUpdate_views (cfg : Config) (n : GoStr) :
    (sendStateUpdate cfg n).1.views = cfg.views := by
  unfold sendStateUpdate
  cases cfg.views.findIdx? (fun v => decide (v.name = cfg.activeViewName)) with
  | some i => rfl
  | none =>
    cases hv : cfg.views with
    | nil => exact hv
    | cons v0 rest => rfl

end StrChat

namespace StrChat

/-- Claim C7: every chat name accepted and stored by the join operation is
normalized (a fixed point of `normalizeAndValidateChatName`) and is within
the length bound; a name whose normalized form exceeds the bound causes an
`ERROR` display event and is not added to the view list.  `u` is any table
instance satisfying the ASCII facts of the Go tables. -/
theorem joinChats_normalized_bounded (u : GoUnicode) (hu : GoUnicodeFacts u)
    (cfg : Config) (n payload : GoStr) :
    (∀ v ∈ (joinChats u cfg n payload).1.views, v ∈ cfg.views ∨
      (v.isGroup = false ∧ v.name.length ≤ maxChatNameLen ∧
        normalizeAndValidateChatName u v.name = .ok v.name)) ∧
    (∀ w ∈ goFields payload, ∀ nw, validGeohash w = false →
      normalizeAndValidateChatName u w = .ok nw →
      maxChatNameLen < nw.length →
      (∃ e ∈ (joinChats u cfg n payload).2, e.dtype = "ERROR".data) ∧
      (∀ v ∈ (joinChats u cfg n payload).1.views, v.name = nw →
        v ∈ cfg.views)) := by
  have hfold := joinFold_views u hu (fun v => v ∈ cfg.views ∨
      (v.isGroup = false ∧ v.name.length ≤ maxChatNameLen ∧
        normalizeAndValidateChatName u v.name = .ok v.name))
    (goFields payload) ⟨cfg.views, cfg.activeViewName, [], [], []⟩
    (fun v hv => Or.inl hv) (fun v hgood => Or.inr hgood)
  have hviews : ∀ v ∈ (joinChats u cfg n payload).1.views, v ∈ cfg.views ∨
      (v.isGroup = false ∧ v.name.length ≤ maxChatNameLen ∧
        normalizeAndValidateChatName u v.name = .ok v.name) := by
    unfold joinChats
    by_cases hempty : goFields payload = []
    · rw [if_pos hempty]
      intro v hv
      exact Or.inl hv
    · rw [if_neg hempty]
      dsimp only
      by_cases hadded : ((goFields payload).foldl (joinStep u)
          ⟨cfg.views, cfg.activeViewName, [], [], []⟩).added ≠ []
      · rw [if_pos hadded]
        dsimp only
        intro v hv
        rw [sendStateUpdate_views] at hv
        exact hfold v hv
      · rw [if_neg hadded]
        by_cases hexist : ((goFields payload).foldl (joinStep u)
              ⟨cfg.views, cfg.activeViewName, [], [], []⟩).existing ≠ [] ∧
            (goFields payload).length = ((goFields payload).foldl (joinStep u)
              ⟨cfg.views, cfg.activeViewName, [], [], []⟩).existing.length
        · rw [if_pos hexist]
          intro v hv
          exact Or.inl hv
        · rw [if_neg hexist]
          intro v hv
          exact Or.inl hv
  refine ⟨hviews, ?_⟩
  intro w hw nw hgeo hnorm hlong
  constructor
  · unfold joinChats
    have hempty : goFields payload ≠ [] := by
      intro hnil
      rw [hnil] at hw
      cases hw
    rw [if_neg hempty]
    dsimp only
    have herr := joinFold_error u (goFields payload)
      ⟨cfg.views, cfg.activeViewName, [], [], []⟩ w nw hw hgeo hnorm hlong
    obtain ⟨e, he, hty⟩ := herr
    by_cases hadded : ((goFields payload).foldl (joinStep u)
        ⟨cfg.views, cfg.activeViewName, [], [], []⟩).added ≠ []
    · rw [if_pos hadded]
      exact ⟨e, List.mem_append_left _ he, hty⟩
    · rw [if_neg hadded]
      by_cases hexist : ((goFields payload).foldl (joinStep u)
            ⟨cfg.views, cfg.activeViewName, [], [], []⟩).existing ≠ [] ∧
          (goFields payload).length = ((goFields payload).foldl (joinStep u)
            ⟨cfg.views, cfg.activeViewName, [], [], []⟩).existing.length
      · rw [if_pos hexist]
        exact ⟨e, List.mem_append_left _ he, hty⟩
      · rw [if_neg hexist]
        exact ⟨e, he, hty⟩
  · intro v hv hname
    rcases hviews v hv with hin | ⟨_, hlen, _⟩
    · exact hin
    · rw [hname] at hlen
      omega

/-- Witness for C7: joining a 20-letter name is rejected with an error. -/
theorem joinChats_normalized_bounded_witness :
    ∃ e ∈ (joinChats asciiGo ⟨[], [], [], [], [], [], []⟩ []
        "thisnameiswaytoolong".data).2, e.dtype = "ERROR".data := by
  have h := (joinChats_normalized_bounded asciiGo asciiGoFacts
    ⟨[], [], [], [], [], [], []⟩ [] "thisnameiswaytoolong".data).2
  exact (h "thisnameiswaytoolong".data (by decide)
    "thisnameiswaytoolong".data (by decide) (by rfl) (by decide)).1

end StrChat

namespace StrChat

/-- Claim C9: `getActiveView` returns nothing only when the view list is
empty; when the stored active-view name matches no view but the list is
non-empty, the first view is the active view, and `sendStateUpdate`
rewrites the stored name to that first view's name. -/
theorem activeView_fallback (cfg : Config) (n : GoStr) :
    (getActiveView cfg = none ↔ cfg.views = []) ∧
    (cfg.views.find? (fun v => decide (v.name = cfg.activeViewName)) = none →
      getActiveView cfg = cfg.views.head?) ∧
    (∀ v0 rest, cfg.views = v0 :: rest →
      cfg.views.find? (fun v => decide (v.name = cfg.activeViewName)) = none →
      (sendStateUpdate cfg n).1.activeViewName = v0.name) := by
  refine ⟨?_, ?_, ?_⟩
  · unfold getActiveView
    cases hf : cfg.views.find? (fun v => decide (v.name = cfg.activeViewName)) with
    | some v =>
      constructor
      · intro h; cases h
      · intro h
        rw [h] at hf
        cases hf
    | none =>
      constructor
      · intro h
        cases hv : cfg.views with
        | nil => rfl
        | cons v0 rest =>
          rw [hv] at h
          cases h
      · intro h
        rw [h]
        rfl
  · intro hf
    unfold getActiveView
    rw [hf]
  · intro v0 rest hcons hf
    have hidx : cfg.views.findIdx? (fun v => decide (v.name = cfg.activeViewName)) = none := by
      rw [List.findIdx?_eq_none_iff]
      intro x hx
      have := List.find?_eq_none.mp hf x hx
      simpa using this
    unfold sendStateUpdate
    rw [hidx, hcons]

/-- Witness for C9 at a concrete configuration whose stored active name is
stale. -/
theorem activeView_fallback_witness :
    (getActiveView ⟨[], [⟨"a".data, false, [], 0⟩], "gone".data, [], [], [], []⟩ =
      none ↔ (⟨[], [⟨"a".data, false, [], 0⟩], "gone".data, [], [], [], []⟩ : Config).views = []) ∧
    (sendStateUpdate ⟨[], [⟨"a".data, false, [], 0⟩], "gone".data, [], [], [], []⟩
      []).1.activeViewName = "a".data := by
  refine ⟨(activeView_fallback _ []).1, ?_⟩
  exact (activeView_fallback ⟨[], [⟨"a".data, false, [], 0⟩], "gone".data, [], [], [], []⟩
    []).2.2 ⟨"a".data, false, [], 0⟩ [] (by decide) (by decide)

end StrChat

namespace StrChat

/-- Claim C4: creating a group from fewer than 2 distinct existing chats
is rejected with an error display event and leaves the configuration
unchanged; after leaving a chat, no group of the resulting view list
contains that chat or has fewer than 2 children (a group that would drop
below 2 children is deleted). -/
theorem group_invariant_ops (cfg : Config) (n payload chatName : GoStr) :
    ((collectMembers cfg payload).valid.length < 2 →
      (createGroup cfg n payload).1 = cfg ∧
      ∃ e ∈ (createGroup cfg n payload).2, e.dtype = "ERROR".data) ∧
    (∀ v ∈ (leaveChat cfg n chatName).1.views, v.isGroup = true →
      chatName ∉ v.children ∧ 2 ≤ v.children.length) := by
  constructor
  · intro hvalid
    unfold createGroup
    by_cases hnf : (collectMembers cfg payload).notFound ≠ []
    · rw [if_pos hnf]
      exact ⟨rfl, ⟨_, List.mem_singleton_self _, rfl⟩⟩
    · rw [if_neg hnf, if_pos hvalid]
      exact ⟨rfl, ⟨_, List.mem_singleton_self _, rfl⟩⟩
  · intro v hv hg
    unfold leaveChat at hv
    dsimp only at hv
    rw [sendStateUpdate_views] at hv
    dsimp only at hv
    obtain ⟨w, _, hfw⟩ := List.mem_filterMap.mp hv
    by_cases hgr : w.isGroup = true
    · rw [if_neg (by simp [hgr])] at hfw
      by_cases hlen :
          (w.children.filter (fun child => decide (child ≠ chatName))).length < 2
      · rw [if_pos hlen] at hfw
        cases hfw
      · rw [if_neg hlen] at hfw
        injection hfw with hfw
        subst hfw
        refine ⟨?_, Nat.le_of_not_lt hlen⟩
        intro hmem
        have := (List.mem_filter.mp hmem).2
        simp at this
    · rw [if_pos (by simp [Bool.not_eq_true _ ▸ hgr])] at hfw
      injection hfw with hfw
      subst hfw
      exact absurd hg hgr

/-- Witness for C4: a group creation from one name fails and leaves the
views unchanged, and leaving a chat prunes it from a 3-child group that
survives with 2 children. -/
theorem group_invariant_ops_witness :
    ((createGroup ⟨[], [⟨"a".data, false, [], 0⟩], "a".data, [], [], [], []⟩
        [] "zzz".data).1 = ⟨[], [⟨"a".data, false, [], 0⟩], "a".data, [], [], [], []⟩ ∧
      ∃ e ∈ (createGroup ⟨[], [⟨"a".data, false, [], 0⟩], "a".data, [], [], [], []⟩
        [] "zzz".data).2, e.dtype = "ERROR".data) ∧
    ("a".data ∉ (⟨"G".data, true, ["b".data, "c".data], 0⟩ : View).children ∧
      2 ≤ (⟨"G".data, true, ["b".data, "c".data], 0⟩ : View).children.length) := by
  constructor
  · exact (group_invariant_ops
      ⟨[], [⟨"a".data, false, [], 0⟩], "a".data, [], [], [], []⟩
      [] "zzz".data "a".data).1 (by decide)
  · exact (group_invariant_ops
      ⟨[], [⟨"a".data, false, [], 0⟩, ⟨"b".data, false, [], 0⟩,
        ⟨"c".data, false, [], 0⟩,
        ⟨"G".data, true, ["a".data, "b".data, "c".data], 0⟩], "a".data,
        [], [], [], []⟩
      [] "whatever".data "a".data).2
      ⟨"G".data, true, ["b".data, "c".data], 0⟩ (by decide) rfl

end StrChat

namespace StrChat

/-- Claim C8: invalid user input to the cited handlers (non-numeric or
negative PoW difficulty, PoW with no active view, group creation naming
unknown chats, out-of-range filter index) emits an `ERROR` display event
and leaves the configuration state unchanged. -/
theorem error_paths_preserve_config (cfg : Config) (n s p payload : GoStr) :
    (goAtoi (goTrimSpace s) = none →
      (setPoW cfg n s).1 = cfg ∧
      ∃ e ∈ (setPoW cfg n s).2, e.dtype = "ERROR".data) ∧
    (∀ d, goAtoi (goTrimSpace s) = some d → d < 0 →
      (setPoW cfg n s).1 = cfg ∧
      ∃ e ∈ (setPoW cfg n s).2, e.dtype = "ERROR".data) ∧
    (cfg.views = [] →
      (setPoW cfg n s).1 = cfg ∧
      ∃ e ∈ (setPoW cfg n s).2, e.dtype = "ERROR".data) ∧
    ((collectMembers cfg payload).notFound ≠ [] →
      (createGroup cfg n payload).1 = cfg ∧
      ∃ e ∈ (createGroup cfg n payload).2, e.dtype = "ERROR".data) ∧
    (p ≠ [] →
      (goAtoi p = none ∨
        ∃ i, goAtoi p = some i ∧ (i < 1 ∨ (cfg.filters.length : Int) < i)) →
      (removeFilter cfg p).1 = cfg ∧
      ∃ e ∈ (removeFilter cfg p).2, e.dtype = "ERROR".data) := by
  refine ⟨?_, ?_, ?_, ?_, ?_⟩
  · intro hnone
    unfold setPoW
    rw [hnone]
    exact ⟨rfl, ⟨_, List.mem_singleton_self _, rfl⟩⟩
  · intro d hd hneg
    unfold setPoW
    rw [hd]
    dsimp only
    rw [if_pos hneg]
    exact ⟨rfl, ⟨_, List.mem_singleton_self _, rfl⟩⟩
  · intro hempty
    unfold setPoW
    cases ha : goAtoi (goTrimSpace s) with
    | none => exact ⟨rfl, ⟨_, List.mem_singleton_self _, rfl⟩⟩
    | some d =>
      dsimp only
      by_cases hneg : d < 0
      · rw [if_pos hneg]
        exact ⟨rfl, ⟨_, List.mem_singleton_self _, rfl⟩⟩
      · rw [if_neg hneg]
        have hav : getActiveView cfg = none := by
          unfold getActiveView
          rw [hempty]
          rfl
        rw [hav]
        exact ⟨rfl, ⟨_, List.mem_singleton_self _, rfl⟩⟩
  · intro hnf
    unfold createGroup
    rw [if_pos hnf]
    exact ⟨rfl, ⟨_, List.mem_singleton_self _, rfl⟩⟩
  · intro hne hbad
    unfold removeFilter
    rw [if_neg hne]
    rcases hbad with hnone | ⟨i, hi, hrange⟩
    · rw [hnone]
      exact ⟨rfl, ⟨_, List.mem_singleton_self _, rfl⟩⟩
    · rw [hi]
      dsimp only
      rw [if_pos hrange]
      exact ⟨rfl, ⟨_, List.mem_singleton_self _, rfl⟩⟩

/-- Witness for C8 at concrete invalid inputs: a non-numeric PoW payload
and an out-of-range filter index on a one-filter configuration. -/
theorem error_paths_preserve_config_witness :
    ((setPoW ⟨[], [], [], [], [], [⟨"f1".data, true⟩], []⟩ [] "abc".data).1 =
        ⟨[], [], [], [], [], [⟨"f1".data, true⟩], []⟩ ∧
      ∃ e ∈ (setPoW ⟨[], [], [], [], [], [⟨"f1".data, true⟩], []⟩ []
        "abc".data).2, e.dtype = "ERROR".data) ∧
    ((removeFilter ⟨[], [], [], [], [], [⟨"f1".data, true⟩], []⟩ "7".data).1 =
        ⟨[], [], [], [], [], [⟨"f1".data, true⟩], []⟩ ∧
      ∃ e ∈ (removeFilter ⟨[], [], [], [], [], [⟨"f1".data, true⟩], []⟩
        "7".data).2, e.dtype = "ERROR".data) := by
  constructor
  · exact (error_paths_preserve_config
      ⟨[], [], [], [], [], [⟨"f1".data, true⟩], []⟩ [] "abc".data
      "7".data []).1 (by decide)
  · exact (error_paths_preserve_config
      ⟨[], [], [], [], [], [⟨"f1".data, true⟩], []⟩ [] "abc".data
      "7".data []).2.2.2.2 (by decide) (Or.inr ⟨7, rfl, Or.inr (by decide)⟩)

end StrChat

namespace StrChat

/-- Claim C5: the backoff delay before the n-th re-subscription attempt is
`min(2^(n-1) * 500ms, 30s)` for every attempt number n >= 1, hence never
exceeds 30 seconds; concretely it doubles from 500ms up to attempt 6 and
is capped at 30s from attempt 7 on. -/
theorem retry_backoff_formula (nn : Nat) (h : 1 ≤ nn) :
    retryBackoffDelayNs nn = min (2 ^ (nn - 1) * 500000000) 30000000000 ∧
    retryBackoffDelayNs nn ≤ 30000000000 ∧
    (nn ≤ 6 → retryBackoffDelayNs nn = 2 ^ (nn - 1) * 500000000) ∧
    (7 ≤ nn → retryBackoffDelayNs nn = 30000000000) := by
  refine ⟨rfl, Nat.min_le_right _ _, ?_, ?_⟩
  · intro h6
    unfold retryBackoffDelayNs
    apply Nat.min_eq_left
    have h2 : 2 ^ (nn - 1) ≤ 2 ^ 5 := Nat.pow_le_pow_right (by norm_num) (by omega)
    have h3 : 2 ^ (nn - 1) * 500000000 ≤ 2 ^ 5 * 500000000 :=
      Nat.mul_le_mul_right _ h2
    norm_num at h3
    omega
  · intro h7
    unfold retryBackoffDelayNs
    apply Nat.min_eq_right
    have h2 : 2 ^ 6 ≤ 2 ^ (nn - 1) := Nat.pow_le_pow_right (by norm_num) (by omega)
    have h3 : 2 ^ 6 * 500000000 ≤ 2 ^ (nn - 1) * 500000000 :=
      Nat.mul_le_mul_right _ h2
    norm_num at h3
    omega

/-- Witness for C5 at attempt 3 (the highest attempt the listener makes
before giving up). -/
theorem retry_backoff_formula_witness :
    retryBackoffDelayNs 3 = min (2 ^ (3 - 1) * 500000000) 30000000000 ∧
    retryBackoffDelayNs 3 ≤ 30000000000 ∧
    (3 ≤ 6 → retryBackoffDelayNs 3 = 2 ^ (3 - 1) * 500000000) ∧
    (7 ≤ 3 → retryBackoffDelayNs 3 = 30000000000) :=
  retry_backoff_formula 3 (by decide)

end StrChat

namespace StrChat

/-- Reading the chats back out of the filters built for a duplicate-free
chat list returns exactly that list. -/
theorem mrCurrentChats_buildFilters (now : Int) (chats : List GoStr)
    (h : chats.Nodup) :
    mrCurrentChats (some ⟨buildFilters now chats⟩) = chats := by
  have key : ∀ (cs : List GoStr) (acc : List GoStr), cs.Nodup →
      (∀ c ∈ cs, c ∉ acc) →
      (buildFilters now cs).foldl (fun acc f => dedupAppend acc (chatsOfFilter f)) acc =
        acc ++ cs := by
    intro cs
    induction cs with
    | nil => intro acc _ _; simp [buildFilters]
    | cons ch rest ih =>
      intro acc hnd hfresh
      have hchf : ∀ f ∈ [(if validGeohash ch then
          (⟨[geochatKind], some [ch], none, now⟩ : NFilter)
          else ⟨[namedChatKind], none, some [ch], now⟩)], chatsOfFilter f = [ch] := by
        intro f hf
        rcases List.mem_singleton.mp hf with rfl
        by_cases hg : validGeohash ch = true
        · rw [if_pos hg]; rfl
        · rw [if_neg hg]; rfl
      simp only [buildFilters, List.map_cons, List.foldl_cons]
      have hstep : dedupAppend acc (chatsOfFilter
          (if validGeohash ch then (⟨[geochatKind], some [ch], none, now⟩ : NFilter)
            else ⟨[namedChatKind], none, some [ch], now⟩)) = acc ++ [ch] := by
        rw [hchf _ (List.mem_singleton_self _)]
        simp only [dedupAppend, List.foldl_cons, List.foldl_nil]
        rw [if_neg (hfresh ch (List.mem_cons_self ch rest))]
      rw [hstep]
      have := ih (acc ++ [ch]) (List.nodup_cons.mp hnd).2 (by
        intro c hc
        rw [List.mem_append]
        rintro (hin | hsing)
        · exact hfresh c (List.mem_cons_of_mem ch hc) hin
        · rcases List.mem_singleton.mp hsing with rfl
          exact (List.nodup_cons.mp hnd).1 hc)
      rw [show (buildFilters now rest) = rest.map (fun ch =>
        if validGeohash ch then (⟨[geochatKind], some [ch], none, now⟩ : NFilter)
        else ⟨[namedChatKind], none, some [ch], now⟩) from rfl] at this
      rw [this, List.append_assoc]
      rfl
  have := key chats [] h (by intro c _ hc; cases hc)
  simpa [mrCurrentChats, buildFilters] using this

/-- `sameStringSet` is reflexive. -/
theorem sameStringSet_refl (l : List GoStr) : sameStringSet l l = true := by
  unfold sameStringSet
  rw [Bool.and_eq_true]
  exact ⟨decide_eq_true rfl, List.all_eq_true.mpr (fun x hx => decide_eq_true hx)⟩

/-- Claim C6: subscription reconciliation is idempotent per relay: after
one `replaceSubscription` with a duplicate-free desired chat list, running
it again with the same list performs no subscribe and no unsubscribe,
because the current chat set is compared to the desired one as unordered
sets. -/
theorem reconcile_idempotent (sub : Option NSub) (chats : List GoStr)
    (now now2 : Int) (h : chats.Nodup) :
    replaceSubscription now2 (replaceSubscription now sub chats).1 chats =
      ((replaceSubscription now sub chats).1, false, false) := by
  unfold replaceSubscription
  by_cases hs : sameStringSet (mrCurrentChats sub) chats = true
  · rw [if_pos hs]
    dsimp only
    rw [if_pos hs]
  · rw [if_neg hs]
    dsimp only
    rw [if_pos (by rw [mrCurrentChats_buildFilters now chats h]; exact sameStringSet_refl chats)]

/-- Witness for C6: reconciling twice with the chat set [a, b] starting
from no subscription. -/
theorem reconcile_idempotent_witness :
    replaceSubscription 1 (replaceSubscription 0 none ["a".data, "b".data]).1
        ["a".data, "b".data] =
      ((replaceSubscription 0 none ["a".data, "b".data]).1, false, false) :=
  reconcile_idempotent none ["a".data, "b".data] 0 1 (by decide)

end StrChat

namespace StrChat

/-- Go string order is irreflexive. -/
theorem goStrLtB_irrefl : ∀ a : GoStr, goStrLtB a a = false := by
  intro a
  induction a with
  | nil => rfl
  | cons c rest ih => simp [goStrLtB, lt_irrefl, ih]

/-- Go string order is asymmetric. -/
theorem goStrLtB_asymm : ∀ a b : GoStr, goStrLtB a b = true → goStrLtB b a = false := by
  intro a
  induction a with
  | nil =>
    intro b h
    cases b with
    | nil => cases h
    | cons d ds => rfl
  | cons c rest ih =>
    intro b h
    cases b with
    | nil => cases h
    | cons d ds =>
      unfold goStrLtB at h ⊢
      by_cases hcd : c < d
      · rw [if_neg (lt_asymm hcd), if_pos hcd]
      · rw [if_neg hcd] at h
        by_cases hdc : d < c
        · rw [if_pos hdc] at h
          cases h
        · rw [if_neg hdc] at h
          rw [if_neg hdc, if_neg hcd]
          exact ih ds h

/-- Two strings neither of which precedes the other are equal. -/
theorem goStrLtB_conn : ∀ a b : GoStr, goStrLtB a b = false →
    goStrLtB b a = false → a = b := by
  intro a
  induction a with
  | nil =>
    intro b h1 _
    cases b with
    | nil => rfl
    | cons d ds => cases h1
  | cons c rest ih =>
    intro b h1 h2
    cases b with
    | nil => cases h2
    | cons d ds =>
      unfold goStrLtB at h1 h2
      by_cases hcd : c < d
      · rw [if_pos hcd] at h1
        cases h1
      · by_cases hdc : d < c
        · rw [if_pos hdc] at h2
          cases h2
        · rw [if_neg hcd, if_neg hdc] at h1
          rw [if_neg hdc, if_neg hcd] at h2
          have hceq : c = d := le_antisymm (not_lt.mp hdc) (not_lt.mp hcd)
          rw [hceq, ih ds h1 h2]

/-- Go string order is transitive. -/
theorem goStrLtB_trans : ∀ a b c : GoStr, goStrLtB a b = true →
    goStrLtB b c = true → goStrLtB a c = true := by
  intro a
  induction a with
  | nil =>
    intro b c h1 h2
    cases b with
    | nil => cases h1
    | cons y ys =>
      cases c with
      | nil => cases h2
      | cons z zs => rfl
  | cons x xs ih =>
    intro b c h1 h2
    cases b with
    | nil => cases h1
    | cons y ys =>
      cases c with
      | nil => cases h2
      | cons z zs =>
        unfold goStrLtB at h1 h2 ⊢
        by_cases hxy : x < y
        · by_cases hyz : y < z
          · rw [if_pos (lt_trans hxy hyz)]
          · by_cases hzy : z < y
            · rw [if_neg hyz, if_pos hzy] at h2
              cases h2
            · have hyzeq : y = z := le_antisymm (not_lt.mp hzy) (not_lt.mp hyz)
              rw [if_pos (hyzeq ▸ hxy)]
        · by_cases hyx : y < x
          · rw [if_neg hxy, if_pos hyx] at h1
            cases h1
          · have hxyeq : x = y := le_antisymm (not_lt.mp hyx) (not_lt.mp hxy)
            rw [if_neg hxy, if_neg hyx] at h1
            by_cases hyz : y < z
            · rw [if_pos (hxyeq ▸ hyz)]
            · by_cases hzy : z < y
              · rw [if_neg hyz, if_pos hzy] at h2
                cases h2
              · have hyzeq : y = z := le_antisymm (not_lt.mp hzy) (not_lt.mp hyz)
                rw [if_neg hyz, if_neg hzy] at h2
                rw [if_neg (hyzeq ▸ hxy : ¬ x < z),
                  if_neg (hyzeq ▸ hyx : ¬ z < x)]
                exact ih ys zs h1 h2

end StrChat

namespace StrChat

/-- The negation of the sort's `less` is exactly the claim's
(timestamp, id) key order. -/
theorem orderLess_false_iff (a b : OrderItem) :
    orderLess b a = false ↔ keyLe a b := by
  unfold orderLess keyLe
  by_cases he : b.createdAt = a.createdAt
  · rw [if_pos he]
    constructor
    · intro h
      by_cases hab : goStrLtB a.id b.id = true
      · exact Or.inr ⟨he.symm, Or.inr hab⟩
      · exact Or.inr ⟨he.symm, Or.inl (goStrLtB_conn _ _
          (Bool.not_eq_true _ ▸ hab) h)⟩
    · rintro (hlt | ⟨_, hid⟩)
      · omega
      · rcases hid with hideq | hlt'
        · rw [hideq]
          exact goStrLtB_irrefl _
        · exact goStrLtB_asymm _ _ hlt'
  · rw [if_neg he]
    constructor
    · intro h
      have := of_decide_eq_false h
      exact Or.inl (by omega)
    · rintro (hlt | ⟨heq, _⟩)
      · exact decide_eq_false (by omega)
      · exact absurd heq.symm he

/-- The strict key order is asymmetric, hence (vacuously) antisymmetric. -/
instance : IsAntisymm OrderItem keyLt := by
  constructor
  intro a b hab hba
  exfalso
  rcases hab with h1 | ⟨e1, s1⟩ <;> rcases hba with h2 | ⟨e2, s2⟩
  · omega
  · omega
  · omega
  · have := goStrLtB_asymm _ _ s1
    rw [s2] at this
    cases this

/-- Non-strict key order plus distinct ids gives the strict key order. -/
theorem keyLt_of_keyLe_ne {a b : OrderItem} (hle : keyLe a b)
    (hne : a.id ≠ b.id) : keyLt a b := by
  rcases hle with hlt | ⟨heq, hid⟩
  · exact Or.inl hlt
  · rcases hid with hid | hlt'
    · exact absurd hid hne
    · exact Or.inr ⟨heq, hlt'⟩

/-- The claim's key order is transitive. -/
theorem keyLe_trans {a b c : OrderItem} (h1 : keyLe a b) (h2 : keyLe b c) :
    keyLe a c := by
  rcases h1 with hlt1 | ⟨heq1, hid1⟩ <;> rcases h2 with hlt2 | ⟨heq2, hid2⟩
  · exact Or.inl (by omega)
  · exact Or.inl (by omega)
  · exact Or.inl (by omega)
  · refine Or.inr ⟨by omega, ?_⟩
    rcases hid1 with hideq1 | hlt1'
    · rw [hideq1]
      exact hid2
    · rcases hid2 with hideq2 | hlt2'
      · rw [← hideq2]
        exact Or.inr hlt1'
      · exact Or.inr (goStrLtB_trans _ _ _ hlt1' hlt2')

end StrChat

namespace StrChat

/-- Claim C3: any output satisfying the `sort.Slice` contract of
`flushOrdered` is non-decreasing in (protocol timestamp, event id); for a
fixed multiset of buffered items with pairwise-distinct event ids the
output is unique, regardless of the arrival order; and the contract is
satisfiable (the `mergeSort` realization meets it). -/
theorem flushOrdered_sorted_deterministic :
    (∀ buf out, goSortedBy buf out → out.Pairwise keyLe) ∧
    (∀ buf1 buf2 out1 out2, buf1.Perm buf2 →
      goSortedBy buf1 out1 → goSortedBy buf2 out2 →
      buf1.Pairwise (fun a b => a.id ≠ b.id) → out1 = out2) ∧
    (∀ buf, goSortedBy buf (flushOrdered buf)) := by
  have hsym : ∀ {x y : OrderItem}, x.id ≠ y.id → y.id ≠ x.id :=
    fun h => Ne.symm h
  refine ⟨?_, ?_, ?_⟩
  · intro buf out ⟨_, hp⟩
    exact hp.imp (fun h => (orderLess_false_iff _ _).mp h)
  · intro buf1 buf2 out1 out2 hperm ⟨hp1, hs1⟩ ⟨hp2, hs2⟩ hids
    have hids1 : out1.Pairwise (fun a b => a.id ≠ b.id) :=
      (List.Perm.pairwise_iff hsym hp1).mpr hids
    have hids2 : out2.Pairwise (fun a b => a.id ≠ b.id) :=
      (List.Perm.pairwise_iff hsym hp2).mpr
        ((List.Perm.pairwise_iff hsym hperm).mp hids)
    have hlt1 : out1.Pairwise keyLt :=
      ((hs1.imp (fun h => (orderLess_false_iff _ _).mp h)).and hids1).imp
        (fun h => keyLt_of_keyLe_ne h.1 h.2)
    have hlt2 : out2.Pairwise keyLt :=
      ((hs2.imp (fun h => (orderLess_false_iff _ _).mp h)).and hids2).imp
        (fun h => keyLt_of_keyLe_ne h.1 h.2)
    exact List.eq_of_perm_of_sorted (hp1.trans (hperm.trans hp2.symm)) hlt1 hlt2
  · intro buf
    constructor
    · exact List.mergeSort_perm buf _
    · have hs := @List.sorted_mergeSort OrderItem
        (fun a b : OrderItem => !orderLess b a)
        (fun a b c hab hbc => by
          rw [Bool.not_eq_true'] at hab hbc ⊢
          rw [orderLess_false_iff] at hab hbc ⊢
          exact keyLe_trans hab hbc)
        (fun a b => by
          rw [Bool.or_eq_true, Bool.not_eq_true', Bool.not_eq_true']
          by_cases h : orderLess b a = false
          · exact Or.inl h
          · refine Or.inr ?_
            rw [orderLess_false_iff]
            rw [Bool.not_eq_false] at h
            unfold orderLess at h
            by_cases he : b.createdAt = a.createdAt
            · rw [if_pos he] at h
              exact Or.inr ⟨he, Or.inr h⟩
            · rw [if_neg he] at h
              exact Or.inl (of_decide_eq_true h))
        buf
      exact hs.imp (fun h => Bool.not_eq_true' .. ▸ h)
  
/-- Witness for C3 on a concrete two-item buffer delivered in both
arrival orders. -/
theorem flushOrdered_sorted_deterministic_witness :
    flushOrdered [⟨⟨[], [], [], [], false, [], [], [], []⟩, 5, "b".data⟩,
        ⟨⟨[], [], [], [], false, [], [], [], []⟩, 3, "a".data⟩] =
      flushOrdered [⟨⟨[], [], [], [], false, [], [], [], []⟩, 3, "a".data⟩,
        ⟨⟨[], [], [], [], false, [], [], [], []⟩, 5, "b".data⟩] ∧
    (flushOrdered [⟨⟨[], [], [], [], false, [], [], [], []⟩, 5, "b".data⟩,
        ⟨⟨[], [], [], [], false, [], [], [], []⟩, 3, "a".data⟩]).Pairwise keyLe := by
  have h := flushOrdered_sorted_deterministic
  exact ⟨h.2.1 _ _ _ _ (by decide) (h.2.2 _) (h.2.2 _) (by decide),
    h.1 _ _ (h.2.2 _)⟩

end StrChat

namespace StrChat

/-- One-step unfolding of `runPipe`. -/
theorem runPipe_cons (rc : RunCfg) (st : PipeState) (p : NEvent × GoStr)
    (rest : List (NEvent × GoStr)) :
    runPipe rc st (p :: rest) =
      ((runPipe rc (processEvent rc st p.1 p.2).1 rest).1,
        (processEvent rc st p.1 p.2).2.toList ++
          (runPipe rc (processEvent rc st p.1 p.2).1 rest).2) := rfl

/-- `runPipe` over a concatenation of traces. -/
theorem runPipe_append (rc : RunCfg) :
    ∀ (t1 t2 : List (NEvent × GoStr)) (st : PipeState),
      runPipe rc st (t1 ++ t2) =
        ((runPipe rc (runPipe rc st t1).1 t2).1,
          (runPipe rc st t1).2 ++ (runPipe rc (runPipe rc st t1).1 t2).2) := by
  intro t1
  induction t1 with
  | nil => intro t2 st; simp [runPipe]
  | cons p rest ih =>
    intro t2 st
    rw [List.cons_append, runPipe_cons, runPipe_cons, ih]
    simp [List.append_assoc]

/-- Truncating after appending an already-truncated list. -/
theorem take_append_take {α : Type} (n : Nat) (A B : List α) :
    List.take n (A ++ List.take n B) = List.take n (A ++ B) := by
  rw [List.take_append_eq_append_take, List.take_append_eq_append_take,
    List.take_take]
  congr 2
  exact Nat.min_eq_left (Nat.sub_le _ _)

/-- The counterexample ids are pairwise distinct. -/
theorem mkId_inj : Function.Injective mkId := by
  intro a b h
  have := congrArg List.length h
  simpa [mkId] using this

/-- Case analysis of one `processEvent` step: either the event is dropped
before the seen-cache stage and the cache is untouched, or its id was
fresh, is recorded, and any display handoff carries exactly that id. -/
theorem processEvent_cases (rc : RunCfg) (st : PipeState) (ev : NEvent)
    (r : GoStr) :
    ((processEvent rc st ev r).1.seenCache = st.seenCache ∧
      (processEvent rc st ev r).2 = none) ∨
    (ev.id ∉ st.seenCache ∧
      (processEvent rc st ev r).1.seenCache =
        lruAdd seenCacheSize ev.id st.seenCache ∧
      ((processEvent rc st ev r).2 = none ∨
        ∃ em, (processEvent rc st ev r).2 = some em ∧ em.id = ev.id)) := by
  unfold processEvent
  by_cases h1 : rc.cfg.blockedUsers.any (fun b => decide (b.pubkey = ev.pubkey)) = true
  · rw [if_pos h1]
    exact Or.inl ⟨rfl, rfl⟩
  rw [if_neg h1]
  by_cases h2 : ev.id ∈ st.seenCache
  · rw [if_pos h2]
    exact Or.inl ⟨rfl, rfl⟩
  rw [if_neg h2]
  try dsimp only
  by_cases h3 : eventChatOf ev = []
  · rw [if_pos h3]
    exact Or.inr ⟨h2, rfl, Or.inl rfl⟩
  rw [if_neg h3]
  by_cases h4 : powRejected rc.cfg ev (eventChatOf ev) = true
  · rw [if_pos h4]
    exact Or.inr ⟨h2, rfl, Or.inl rfl⟩
  rw [if_neg h4]
  try dsimp only
  by_cases h5 : matchesAny (sanitizeString rc.uni (truncateString ev.content maxMsgLen))
      rc.mutesCompiled = true
  · rw [if_pos h5]
    exact Or.inr ⟨h2, rfl, Or.inl rfl⟩
  rw [if_neg h5]
  by_cases h6 : 0 < rc.filtersCompiled.length ∧
      matchesAny (sanitizeString rc.uni (truncateString ev.content maxMsgLen))
        rc.filtersCompiled = false
  · rw [if_pos h6]
    exact Or.inr ⟨h2, rfl, Or.inl rfl⟩
  rw [if_neg h6]
  try dsimp only
  exact Or.inr ⟨h2, rfl, Or.inr ⟨_, rfl, rfl⟩⟩

end StrChat

namespace StrChat

/-- The dedup invariant of the ingestion pipeline: starting from a
duplicate-free seen-cache that together with the incoming ids fits in the
cache capacity, ids already seen are never displayed again, and no id is
displayed more than once. -/
theorem runPipe_dedup (rc : RunCfg) :
    ∀ (trace : List (NEvent × GoStr)) (st : PipeState),
      st.seenCache.Nodup →
      (st.seenCache.toFinset ∪
        (trace.map (fun p => p.1.id)).toFinset).card ≤ seenCacheSize →
      (∀ idv ∈ st.seenCache,
        ((runPipe rc st trace).2.filter (fun e => decide (e.id = idv))).length = 0) ∧
      (∀ idv,
        ((runPipe rc st trace).2.filter (fun e => decide (e.id = idv))).length ≤ 1) := by
  intro trace
  induction trace with
  | nil =>
    intro st _ _
    constructor
    · intro idv _
      simp [runPipe]
    · intro idv
      simp [runPipe]
  | cons p rest ih =>
    intro st hnd hcard
    rcases processEvent_cases rc st p.1 p.2 with ⟨hseen, hem⟩ | ⟨hfresh, hseen, hem⟩
    · have hsub : ((processEvent rc st p.1 p.2).1.seenCache.toFinset ∪
          (rest.map (fun p => p.1.id)).toFinset).card ≤ seenCacheSize := by
        refine le_trans (Finset.card_le_card ?_) hcard
        rw [hseen]
        intro x hx
        rw [Finset.mem_union] at hx
        rw [Finset.mem_union]
        rcases hx with hx | hx
        · exact Or.inl hx
        · right
          rw [List.map_cons, List.toFinset_cons]
          exact Finset.mem_insert_of_mem hx
      have hnd' : (processEvent rc st p.1 p.2).1.seenCache.Nodup := by
        rw [hseen]; exact hnd
      obtain ⟨iha, ihb⟩ := ih (processEvent rc st p.1 p.2).1 hnd' hsub
      constructor
      · intro idv hidv
        rw [runPipe_cons, hem]
        simp only [Option.toList_none, List.nil_append]
        exact iha idv (by rw [hseen]; exact hidv)
      · intro idv
        rw [runPipe_cons, hem]
        simp only [Option.toList_none, List.nil_append]
        exact ihb idv
    · have hlen : st.seenCache.length + 1 ≤ seenCacheSize := by
        have h1 : st.seenCache.toFinset.card = st.seenCache.length :=
          List.toFinset_card_of_nodup hnd
        have h2 : insert p.1.id st.seenCache.toFinset ⊆
            st.seenCache.toFinset ∪
              ((p :: rest).map (fun q => q.1.id)).toFinset := by
          intro x hx
          rw [Finset.mem_insert] at hx
          rw [Finset.mem_union]
          rcases hx with rfl | hx
          · right
            rw [List.map_cons, List.toFinset_cons]
            exact Finset.mem_insert_self _ _
          · exact Or.inl hx
        have h3 := Finset.card_le_card h2
        rw [Finset.card_insert_of_not_mem (by
          rw [List.mem_toFinset]; exact hfresh)] at h3
        omega
      have hlru : lruAdd seenCacheSize p.1.id st.seenCache =
          p.1.id :: st.seenCache := by
        unfold lruAdd
        apply List.take_of_length_le
        simpa using hlen
      have hnd' : (processEvent rc st p.1 p.2).1.seenCache.Nodup := by
        rw [hseen, hlru]
        exact List.nodup_cons.mpr ⟨hfresh, hnd⟩
      have hsub : ((processEvent rc st p.1 p.2).1.seenCache.toFinset ∪
          (rest.map (fun p => p.1.id)).toFinset).card ≤ seenCacheSize := by
        refine le_trans (Finset.card_le_card ?_) hcard
        rw [hseen, hlru, List.toFinset_cons]
        intro x hx
        rw [Finset.mem_union] at hx
        rw [Finset.mem_union]
        rcases hx with hx | hx
        · rw [Finset.mem_insert] at hx
          rcases hx with rfl | hx
          · right
            rw [List.map_cons, List.toFinset_cons]
            exact Finset.mem_insert_self _ _
          · exact Or.inl hx
        · right
          rw [List.map_cons, List.toFinset_cons]
          exact Finset.mem_insert_of_mem hx
      obtain ⟨iha, ihb⟩ := ih (processEvent rc st p.1 p.2).1 hnd' hsub
      have hmem' : ∀ idv ∈ st.seenCache,
          idv ∈ (processEvent rc st p.1 p.2).1.seenCache := by
        intro idv hidv
        rw [hseen, hlru]
        exact List.mem_cons_of_mem _ hidv
      constructor
      · intro idv hidv
        rw [runPipe_cons]
        rcases hem with hem | ⟨em, hem, hemid⟩
        · rw [hem]
          simp only [Option.toList_none, List.nil_append]
          exact iha idv (hmem' idv hidv)
        · rw [hem]
          simp only [Option.toList_some, List.cons_append, List.nil_append]
          rw [List.filter_cons, if_neg (by
            simp only [decide_eq_true_eq]
            rw [hemid]
            intro hcontra
            exact hfresh (hcontra ▸ hidv))]
          exact iha idv (hmem' idv hidv)
      · intro idv
        rw [runPipe_cons]
        rcases hem with hem | ⟨em, hem, hemid⟩
        · rw [hem]
          simp only [Option.toList_none, List.nil_append]
          exact ihb idv
        · rw [hem]
          simp only [Option.toList_some, List.cons_append, List.nil_append]
          rw [List.filter_cons]
          by_cases hid : em.id = idv
          · rw [if_pos (by simp [hid])]
            have hz := iha idv (by
              rw [hseen, hlru, ← hid, hemid]
              exact List.mem_cons_self _ _)
            simp only [List.length_cons, hz]
            omega
          · rw [if_neg (by simp [hid])]
            exact ihb idv

end StrChat

namespace StrChat

/-- Claim C2 (amended): the ingestion pipeline displays each event id at
most once provided the run's distinct event ids fit within the bounded
seen-cache (`seenCacheSize`, 8192); beyond that bound the LRU cache can
evict an id and the claim fails (see the counterexample). -/
theorem dedup_at_most_once_of_bounded_ids (rc : RunCfg)
    (trace : List (NEvent × GoStr))
    (h : (trace.map (fun p => p.1.id)).toFinset.card ≤ seenCacheSize)
    (idv : GoStr) : displayCount rc trace idv ≤ 1 := by
  have hrun := (runPipe_dedup rc trace ⟨[], []⟩ List.nodup_nil (by
    simpa using h)).2 idv
  simpa [displayCount] using hrun

/-- Witness for the amended C2: two deliveries of the same event id
display it at most once. -/
theorem dedup_at_most_once_witness :
    displayCount cexCfg [(mkEv 0, "r".data), (mkEv 0, "r".data)]
      (mkId 0) ≤ 1 :=
  dedup_at_most_once_of_bounded_ids cexCfg
    [(mkEv 0, "r".data), (mkEv 0, "r".data)] (by decide) (mkId 0)

end StrChat

namespace StrChat

/-- Every counterexample event passes all gates of `processEvent` when its
id is fresh: the id is recorded and a display handoff with that id is
produced. -/
theorem processEvent_cex (st : PipeState) (k : Nat)
    (h : mkId k ∉ st.seenCache) :
    (processEvent cexCfg st (mkEv k) "r".data).1.seenCache =
      lruAdd seenCacheSize (mkId k) st.seenCache ∧
    ∃ em, (processEvent cexCfg st (mkEv k) "r".data).2 = some em ∧
      em.id = mkId k := by
  unfold processEvent
  rw [if_neg (show ¬(cexCfg.cfg.blockedUsers.any
      (fun b => decide (b.pubkey = (mkEv k).pubkey)) = true) from by
    rw [show cexCfg.cfg.blockedUsers = [] from rfl]
    simp)]
  rw [if_neg (show ¬((mkEv k).id ∈ st.seenCache) from h)]
  try dsimp only
  rw [if_neg (show ¬(eventChatOf (mkEv k) = []) from by
    rw [show eventChatOf (mkEv k) = "c".data from rfl]
    simp)]
  rw [if_neg (show ¬(powRejected cexCfg.cfg (mkEv k) (eventChatOf (mkEv k)) = true) from by
    rw [show powRejected cexCfg.cfg (mkEv k) (eventChatOf (mkEv k)) = false from rfl]
    simp)]
  try dsimp only
  rw [if_neg (show ¬(matchesAny (sanitizeString cexCfg.uni
      (truncateString (mkEv k).content maxMsgLen)) cexCfg.mutesCompiled = true) from by
    rw [show cexCfg.mutesCompiled = [] from rfl]
    simp [matchesAny])]
  rw [if_neg (show ¬(0 < cexCfg.filtersCompiled.length ∧
      matchesAny (sanitizeString cexCfg.uni
        (truncateString (mkEv k).content maxMsgLen)) cexCfg.filtersCompiled = false) from by
    rw [show cexCfg.filtersCompiled = ([] : List CompiledPat) from rfl]
    simp)]
  try dsimp only
  exact ⟨rfl, _, rfl, rfl⟩

/-- Running a block of fresh, pairwise-distinct counterexample events
displays every one of them and leaves the seen-cache holding the newest
`seenCacheSize` ids. -/
theorem runPipe_block :
    ∀ (ks : List Nat) (st : PipeState), (ks.map mkId).Nodup →
      (∀ k ∈ ks, mkId k ∉ st.seenCache) →
      st.seenCache.length ≤ seenCacheSize →
      (runPipe cexCfg st (ks.map (fun k => (mkEv k, "r".data)))).1.seenCache =
        List.take seenCacheSize ((ks.map mkId).reverse ++ st.seenCache) ∧
      (runPipe cexCfg st (ks.map (fun k => (mkEv k, "r".data)))).2.map
          EmitItem.id = ks.map mkId := by
  intro ks
  induction ks with
  | nil =>
    intro st _ _ hlen
    constructor
    · simp only [List.map_nil, runPipe, List.reverse_nil, List.nil_append]
      exact (List.take_of_length_le hlen).symm
    · simp [runPipe]
  | cons k rest ih =>
    intro st hnd hfresh hlen
    obtain ⟨hseen, em, hem, hemid⟩ :=
      processEvent_cex st k (hfresh k (List.mem_cons_self k rest))
    rw [List.map_cons, runPipe_cons]
    have hndrest : (rest.map mkId).Nodup := (List.nodup_cons.mp (by
      simpa using hnd)).2
    have hheadfresh : mkId k ∉ rest.map mkId := (List.nodup_cons.mp (by
      simpa using hnd)).1
    have hfresh' : ∀ k' ∈ rest,
        mkId k' ∉ (processEvent cexCfg st (mkEv k) "r".data).1.seenCache := by
      intro k' hk' hmem
      rw [hseen] at hmem
      have hmem' : mkId k' ∈ mkId k :: st.seenCache :=
        List.take_subset _ _ hmem
      rcases List.mem_cons.mp hmem' with heq | hmem''
      · exact hheadfresh (heq ▸ List.mem_map_of_mem mkId hk')
      · exact hfresh k' (List.mem_cons_of_mem k hk') hmem''
    have hlen' : (processEvent cexCfg st (mkEv k) "r".data).1.seenCache.length ≤
        seenCacheSize := by
      rw [hseen]
      unfold lruAdd
      rw [List.length_take]
      exact Nat.min_le_left _ _
    obtain ⟨ihs, ihe⟩ := ih (processEvent cexCfg st (mkEv k) "r".data).1
      hndrest hfresh' hlen'
    constructor
    · rw [ihs, hseen]
      rw [show lruAdd seenCacheSize (mkId k) st.seenCache =
        List.take seenCacheSize (mkId k :: st.seenCache) from rfl]
      rw [take_append_take, List.map_cons, List.reverse_cons, List.append_assoc]
      rfl
    · rw [hem]
      simp only [Option.toList_some, List.cons_append, List.nil_append,
        List.map_cons, hemid, ihe]

end StrChat

namespace StrChat

/-- `runPipe` on the empty trace. -/
theorem runPipe_nil (rc : RunCfg) (st : PipeState) :
    runPipe rc st [] = (st, []) := rfl

/-- Claim C2 (counterexample): after `seenCacheSize` (8192) other distinct
ids, the bounded LRU seen-cache evicts an id; a later delivery of that id
is displayed again, so the pipeline displays the same id twice within one
run, refuting unconditional at-most-once display per id. -/
theorem dedup_eviction_cex : displayCount cexCfg cexTrace (mkId 0) = 2 := by
  unfold displayCount cexTrace
  rw [runPipe_append]
  have hnd : ((List.range (seenCacheSize + 1)).map mkId).Nodup :=
    (List.nodup_range _).map mkId_inj
  obtain ⟨hs1, he1⟩ := runPipe_block (List.range (seenCacheSize + 1)) ⟨[], []⟩
    hnd (by intro k _ hmem; cases hmem) (by simp)
  -- the final seen-cache of the block: the newest 8192 ids, id 0 evicted
  have hseen1 : (runPipe cexCfg ⟨[], []⟩
      ((List.range (seenCacheSize + 1)).map (fun k => (mkEv k, "r".data)))).1.seenCache =
      ((List.range seenCacheSize).map (fun kk => mkId (Nat.succ kk))).reverse := by
    rw [hs1, List.append_nil]
    rw [show seenCacheSize + 1 = seenCacheSize + 1 from rfl, List.range_succ_eq_map]
    rw [List.map_cons, List.reverse_cons, List.map_map]
    rw [List.take_append_of_le_length (by
      rw [List.length_reverse, List.length_map, List.length_range])]
    rw [List.take_of_length_le (by
      rw [List.length_reverse, List.length_map, List.length_range])]
    rfl
  have h0free : mkId 0 ∉ ((List.range seenCacheSize).map
      (fun kk => mkId (Nat.succ kk))).reverse := by
    intro hmem
    rw [List.mem_reverse] at hmem
    obtain ⟨kk, _, hk⟩ := List.mem_map.mp hmem
    exact Nat.succ_ne_zero kk (mkId_inj hk)
  obtain ⟨hs2, em2, hem2, hemid2⟩ := processEvent_cex
    (runPipe cexCfg ⟨[], []⟩
      ((List.range (seenCacheSize + 1)).map (fun k => (mkEv k, "r".data)))).1 0
    (by rw [hseen1]; exact h0free)
  -- count the displays of id 0: once in the block, once in the replay
  rw [List.filter_append, List.length_append]
  have hgen : ∀ l2 : List EmitItem,
      l2.map EmitItem.id = (List.range (seenCacheSize + 1)).map mkId →
      (l2.filter (fun e => decide (e.id = mkId 0))).length = 1 := by
    intro l2 hl2
    rw [← List.countP_eq_length_filter]
    show List.countP ((fun s => decide (s = mkId 0)) ∘ EmitItem.id) l2 = 1
    rw [← List.countP_map, hl2, List.countP_map]
    rw [List.countP_congr (q := fun kk => decide (kk = 0)) (by
      intro kk _
      simp only [Function.comp_apply, decide_eq_true_eq]
      exact ⟨fun hh => mkId_inj hh, fun hh => hh ▸ rfl⟩)]
    rw [List.range_succ_eq_map, List.countP_cons]
    rw [List.countP_map]
    rw [List.countP_eq_zero.mpr (by
      intro a _
      simp)]
    simp
  have hc1 : ((runPipe cexCfg ⟨[], []⟩
      ((List.range (seenCacheSize + 1)).map (fun k => (mkEv k, "r".data)))).2.filter
        (fun e => decide (e.id = mkId 0))).length = 1 := hgen _ he1
  have hc2 : ((runPipe cexCfg (runPipe cexCfg ⟨[], []⟩
      ((List.range (seenCacheSize + 1)).map (fun k => (mkEv k, "r".data)))).1
        [(mkEv 0, "r".data)]).2.filter
          (fun e => decide (e.id = mkId 0))).length = 1 := by
    rw [runPipe_cons]
    dsimp only
    rw [hem2, runPipe_nil]
    simp only [Option.toList_some, List.cons_append, List.nil_append]
    rw [List.filter_cons, if_pos (by simp [hemid2]), List.filter_nil]
    rfl
  rw [hc1, hc2]

end StrChat
